import Mathlib

/-!
Verification of the tile-based template chunking, indexing, and pixel-diff
engine of the Blue Marble userscript (src/src/Template.js).

The source is shallowly embedded: decoded RGBA rasters become `Image`
(a width, a height, and a total pixel function), canvas `drawImage` with
`imageSmoothingEnabled = false` at an exact integer scale becomes
nearest-neighbour index arithmetic, `Uint32Array` packed buffers become
`List Nat` (or packed-lookup functions), the JavaScript `Set` objects
`placedPixelKeys` / `wrongPixelKeys` become `Finset (Nat × Nat)` of global
pixel coordinates, and the in-place pixel loops become left folds over the
explicit iteration order of the source loops.  PNG encode/decode round
trips (convertToBlob / createImageBitmap) are modelled as the identity on
pixel data, PNG being lossless.
-/

/-- One decoded RGBA sample, as produced by getImageData.  Channels are
8-bit in the browser; here they are naturals, with bounds stated where a
proof requires them. -/
structure RGBA where
  r : Nat
  g : Nat
  b : Nat
  a : Nat
deriving DecidableEq, Repr

/-- A decoded pixel raster: the common currency between all components.
The pixel function is total; only coordinates below the bounds are
meaningful. -/
structure Image where
  width : Nat
  height : Nat
  pix : Nat → Nat → RGBA

/-- The 24-bit colour packing `(r << 16) | (g << 8) | b` used by both the
chunk indexer and the diff engine (Template.js lines 216 and 287,
TemplateManager.js line 666). -/
def packRGB (c : RGBA) : Nat :=
  c.r * 65536 + c.g * 256 + c.b

/-- Packed value of a sample with the transparency convention of the
source: fully transparent samples pack to 0, others to `packRGB`. -/
def packIf (c : RGBA) : Nat :=
  if c.a = 0 then 0 else packRGB c

/-- Row-major iteration order of the nested `for (y) for (x)` pixel loops
of the source: y outer, x inner. -/
def pixelList (w h : Nat) : List (Nat × Nat) :=
  (List.range h).flatMap fun y => (List.range w).map fun x => (x, y)

lemma mem_pixelList {w h : Nat} {p : Nat × Nat} :
    p ∈ pixelList w h ↔ p.1 < w ∧ p.2 < h := by
  cases p with
  | mk x y =>
    simp only [pixelList, List.mem_flatMap, List.mem_map, List.mem_range]
    constructor
    · rintro ⟨y', hy', x', hx', h⟩
      cases h
      exact ⟨hx', hy'⟩
    · rintro ⟨hx, hy⟩
      exact ⟨y, hy, x, hx, rfl⟩

/-! ### Tile chunker (Template.createTemplateTiles, lines 98-235)

The nested `for (pixelY …) { for (pixelX …) … }` loops partition each
axis independently into segments.  Each step draws a segment of size
`min(tileSize - pos % tileSize, remainingExtent)` and advances by that
size.  `segmentsAux` is the loop with an explicit fuel equal to the
remaining extent, which suffices because each step consumes at least one
pixel when the tile size is positive. -/

def segmentsAux (T : Nat) : Nat → Nat → Nat → List (Nat × Nat)
  | 0, _, _ => []
  | fuel + 1, pos, rem =>
    if rem = 0 then []
    else
      let d := min (T - pos % T) rem
      (pos, d) :: segmentsAux T fuel (pos + d) (rem - d)

/-- The list of (position, size) segments one axis of the chunking loop
produces, starting at global pixel `pos` with `extent` pixels to cover. -/
def segments (T pos extent : Nat) : List (Nat × Nat) :=
  segmentsAux T extent pos extent

/-- One emitted chunk rectangle: global pixel position of its top-left
corner and its logical (pre-upscale) size. -/
structure Rect where
  px : Nat
  py : Nat
  dx : Nat
  dy : Nat
deriving DecidableEq, Repr

/-- All chunk rectangles of one chunking pass, in emission order
(Y segments outer, X segments inner, exactly as the source loops). -/
def chunkRects (T c2 c3 W H : Nat) : List Rect :=
  (segments T c3 H).flatMap fun sy =>
    (segments T c2 W).map fun sx => ⟨sx.1, sy.1, sx.2, sy.2⟩

/-- The chunk bitmap for a rectangle: the source sub-rectangle upscaled
3x with nearest neighbour (drawImage, line 136), then every sample that
is not at the centre offset (1,1) of its 3x3 cell forced to zero alpha
(the shread loop, lines 155-174). -/
def chunkBitmap (img : Image) (c2 c3 : Nat) (r : Rect) : Image :=
  { width := r.dx * 3
    height := r.dy * 3
    pix := fun x y =>
      let s := img.pix (r.px - c2 + x / 3) (r.py - c3 + y / 3)
      if x % 3 = 1 ∧ y % 3 = 1 then s else ⟨s.r, s.g, s.b, 0⟩ }

/-- Numeric components of the chunk key built at Template.js lines
181-187: note the source divides and reduces by the literal 1000, not by
`this.tileSize`. -/
def chunkKeyParts (c0 c1 px py : Nat) : Nat × Nat × Nat × Nat :=
  (c0 + px / 1000, c1 + py / 1000, px % 1000, py % 1000)

/-- Left-pads a numeral string with zeros (padStart of the source). -/
def padZeros (w : Nat) (s : String) : String :=
  String.mk (List.replicate (w - s.length) '0') ++ s

/-- The chunk key string TTTT,TTTT,PPP,PPP of Template.js lines 181-187. -/
def chunkKey (c0 c1 px py : Nat) : String :=
  padZeros 4 (toString (c0 + px / 1000)) ++ "," ++
  padZeros 4 (toString (c1 + py / 1000)) ++ "," ++
  padZeros 3 (toString (px % 1000)) ++ "," ++
  padZeros 3 (toString (py % 1000))

/-- The keys of all chunks emitted by one chunking pass. -/
def chunkKeys (T c0 c1 c2 c3 W H : Nat) : List String :=
  (chunkRects T c2 c3 W H).map fun r => chunkKey c0 c1 r.px r.py

/-! ### Chunk index (packed-colour buffers) -/

/-- One entry of `centerPixelIndex`: logical size plus the packed-colour
buffer, row-major. -/
structure CenterIndexEntry where
  width : Nat
  height : Nat
  data : List Nat
deriving DecidableEq, Repr

/-- The packed buffer built inline at original chunking time
(Template.js lines 200-224): logical size derived from the canvas size,
centre samples of the (already shreaded) image data packed, transparent
centres recorded as 0. -/
def inlineCenterEntry (imgD : Image) (canvasW canvasH : Nat) : CenterIndexEntry :=
  let w := canvasW / 3
  let h := canvasH / 3
  { width := w
    height := h
    data := (List.range (h * w)).map fun i =>
      packIf (imgD.pix ((i % w) * 3 + 1) ((i / w) * 3 + 1)) }

/-- The packed buffer rebuilt from a stored chunk bitmap
(Template.buildCenterPixelIndex, lines 258-297), parameterised by
drawMult as in the source (the manager always passes 3). -/
def buildCenterPixelIndexEntry (drawMult : Nat) (bmp : Image) : CenterIndexEntry :=
  let w := bmp.width / drawMult
  let h := bmp.height / drawMult
  { width := w
    height := h
    data := (List.range (h * w)).map fun i =>
      packIf (bmp.pix ((i % w) * drawMult + 1) ((i / w) * drawMult + 1)) }

/-! ### Diff engine (TemplateManager.drawTemplateOnTile)

The classification sets live on each template instance.  The source
guards every insert and delete with a membership test; `addIf` and
`delIf` embed those guarded operations literally. -/

/-- The two classification sets of a template, keyed by global pixel
coordinate. -/
@[ext]
structure DiffState where
  placed : Finset (Nat × Nat)
  wrong : Finset (Nat × Nat)
deriving DecidableEq

/-- Guarded delete: `if (set.has(key)) set.delete(key)`. -/
def delIf (s : Finset (Nat × Nat)) (k : Nat × Nat) : Finset (Nat × Nat) :=
  if k ∈ s then s.erase k else s

/-- Guarded insert: `if (!set.has(key)) set.add(key)`. -/
def addIf (s : Finset (Nat × Nat)) (k : Nat × Nat) : Finset (Nat × Nat) :=
  if k ∈ s then s else insert k s

lemma delIf_eq_erase (s : Finset (Nat × Nat)) (k : Nat × Nat) :
    delIf s k = s.erase k := by
  unfold delIf
  split
  · rfl
  · exact (Finset.erase_eq_of_not_mem (by assumption)).symm

lemma addIf_eq_insert (s : Finset (Nat × Nat)) (k : Nat × Nat) :
    addIf s k = insert k s := by
  unfold addIf
  split
  · exact (Finset.insert_eq_self.mpr (by assumption)).symm
  · rfl

/-- Per-pixel classification of the optimized counting path
(TemplateManager.js lines 683-708): defensive bound check against the
tile size, skip when the template packed value is 0, then the four-way
rule on the packed live value.  `base` is the packed live snapshot,
`cdata` the chunk's packed buffer lookup. -/
def diffStep (T : Nat) (base : Nat → Nat → Nat) (tX tY offX offY : Nat)
    (cdata : Nat → Nat → Nat) (st : DiffState) (p : Nat × Nat) : DiffState :=
  let dstX := offX + p.1
  let dstY := offY + p.2
  if T ≤ dstX ∨ T ≤ dstY then st
  else
    let baseVal := base dstX dstY
    let tplVal := cdata p.1 p.2
    if tplVal = 0 then st
    else
      let k := (tX * T + dstX, tY * T + dstY)
      if baseVal = 0 then ⟨delIf st.placed k, delIf st.wrong k⟩
      else if baseVal = tplVal then ⟨addIf st.placed k, delIf st.wrong k⟩
      else ⟨delIf st.placed k, addIf st.wrong k⟩

/-- One chunk of the optimized path: local pixel offset within its base
tile, logical size, and packed-buffer lookup. -/
structure Chunk where
  offX : Nat
  offY : Nat
  width : Nat
  height : Nat
  cdata : Nat → Nat → Nat

/-- The inner pixel loop of the optimized path over one chunk. -/
def diffChunk (T : Nat) (base : Nat → Nat → Nat) (tX tY : Nat)
    (c : Chunk) (st : DiffState) : DiffState :=
  (pixelList c.width c.height).foldl
    (diffStep T base tX tY c.offX c.offY c.cdata) st

/-- The optimized diff over all chunks of one base tile. -/
def diffTile (T : Nat) (base : Nat → Nat → Nat) (tX tY : Nat)
    (chunks : List Chunk) (st : DiffState) : DiffState :=
  chunks.foldl (fun s c => diffChunk T base tX tY c s) st

/-- The packed live snapshot the optimized path precomputes
(TemplateManager.js lines 657-669): 0 at fully transparent pixels, the
24-bit packed colour elsewhere. -/
def livePacked (live : Image) : Nat → Nat → Nat :=
  fun x y => packIf (live.pix x y)

/-- Nearest-neighbour 3x upscale of the live tile performed by the
legacy path before sampling (drawImage at drawSizeLegacy, line 582). -/
def upscale3 (img : Image) : Image :=
  ⟨img.width * 3, img.height * 3, fun x y => img.pix (x / 3) (y / 3)⟩

/-- One chunk of the legacy path: local pixel offset plus the stored
upscaled bitmap, whose colours are re-derived at request time. -/
structure BmpChunk where
  offX : Nat
  offY : Nat
  bmp : Image

/-- Per-pixel classification of the legacy counting path
(TemplateManager.js lines 609-641): sample the chunk bitmap at the 3x3
cell centre, skip when that sample is transparent, then classify from
the live 3x render sampled at the destination centre, comparing RGB
channels componentwise. -/
def legacyStep (T tX tY : Nat) (live3 : Image) (offX offY : Nat)
    (tb : Image) (st : DiffState) (p : Nat × Nat) : DiffState :=
  let tplC := tb.pix (p.1 * 3 + 1) (p.2 * 3 + 1)
  if tplC.a = 0 then st
  else
    let baseC := live3.pix ((offX + p.1) * 3 + 1) ((offY + p.2) * 3 + 1)
    let k := (tX * T + (offX + p.1), tY * T + (offY + p.2))
    if baseC.a = 0 then ⟨delIf st.placed k, delIf st.wrong k⟩
    else if baseC.r = tplC.r ∧ baseC.g = tplC.g ∧ baseC.b = tplC.b then
      ⟨addIf st.placed k, delIf st.wrong k⟩
    else ⟨delIf st.placed k, addIf st.wrong k⟩

/-- The inner pixel loop of the legacy path over one chunk; the logical
size is re-derived from the stored bitmap (lines 599-600). -/
def legacyChunk (T tX tY : Nat) (live3 : Image) (c : BmpChunk)
    (st : DiffState) : DiffState :=
  (pixelList (c.bmp.width / 3) (c.bmp.height / 3)).foldl
    (legacyStep T tX tY live3 c.offX c.offY c.bmp) st

/-- The legacy diff over all chunks of one base tile. -/
def legacyTile (T tX tY : Nat) (live : Image) (chunks : List BmpChunk)
    (st : DiffState) : DiffState :=
  chunks.foldl (fun s c => legacyChunk T tX tY (upscale3 live) c s) st

/-- How the optimized path's chunk data is obtained in the real system:
`buildCenterPixelIndex` over the stored bitmap, then indexed reads
`centerData[y * width + x]` (0 when out of range, as a typed array read
never is in practice). -/
def chunkOfBitmap (c : BmpChunk) : Chunk :=
  let e := buildCenterPixelIndexEntry 3 c.bmp
  ⟨c.offX, c.offY, e.width, e.height, fun x y => e.data.getD (y * e.width + x) 0⟩

/-! ### Colour compositor (TemplateManager.js lines 750-800) -/

/-- Centre x (or y) coordinates visited by the masking loop
`for (let x = 1; x < bw; x += 3)`. -/
def centersList (n : Nat) : List Nat :=
  (List.range ((n + 1) / 3)).map fun i => i * 3 + 1

/-- All centre coordinates visited, y outer, x inner. -/
def centerPairs (bw bh : Nat) : List (Nat × Nat) :=
  (centersList bh).flatMap fun cy => (centersList bw).map fun cx => (cx, cy)

/-- Blanks the 3x3 block around a centre to full transparency, clipped
to the bitmap bounds (lines 784-792); only alpha is written. -/
def blankBlock (img : Image) (cx cy : Nat) : Image :=
  { img with
    pix := fun x y =>
      if cx - 1 ≤ x ∧ x ≤ cx + 1 ∧ cy - 1 ≤ y ∧ y ≤ cy + 1 ∧
          x < img.width ∧ y < img.height then
        let c := img.pix x y
        ⟨c.r, c.g, c.b, 0⟩
      else img.pix x y }

/-- One iteration of the masking loop: skip transparent centres, skip
centres whose colour key is in the allow-list, blank the block
otherwise. -/
def maskStep (allow : Finset (Nat × Nat × Nat)) (img : Image)
    (c : Nat × Nat) : Image :=
  let p := img.pix c.1 c.2
  if p.a = 0 then img
  else if (p.r, p.g, p.b) ∈ allow then img
  else blankBlock img c.1 c.2

/-- The full masking pass over a copy of the chunk bitmap. -/
def maskBitmap (allow : Finset (Nat × Nat × Nat)) (img : Image) : Image :=
  (centerPairs img.width img.height).foldl (maskStep allow) img

/-- The compositor branch on the allow-list (lines 757-798): null means
draw the bitmap unmodified, empty means contribute nothing, otherwise
draw the masked copy.  The canonical bitmap is never written: the source
masks a fresh canvas copy, which purity makes structural here. -/
def composite (allow : Option (Finset (Nat × Nat × Nat))) (img : Image) :
    Option Image :=
  match allow with
  | none => some img
  | some s => if s = ∅ then none else some (maskBitmap s img)

/-! ### Colour histogram and active colours -/

/-- The histogram keys contributed by one chunk at original chunking
time (Template.js lines 155-174): iterate every canvas pixel, and at
3x3 cell centres with non-zero alpha record the comma-joined RGB key
(modelled as the RGB triple). -/
def chunkColorKeysCanvas (imgD : Image) (canvasW canvasH : Nat)
    (init : Finset (Nat × Nat × Nat)) : Finset (Nat × Nat × Nat) :=
  (pixelList canvasW canvasH).foldl
    (fun acc p =>
      if p.1 % 3 = 1 ∧ p.2 % 3 = 1 then
        let c := imgD.pix p.1 p.2
        if c.a ≠ 0 then insert (c.r, c.g, c.b) acc else acc
      else acc) init

/-- colorsUsed after createTemplateTiles: chunks contribute in emission
order to the initially empty map. -/
def colorsUsedAfterCreate (img : Image) (c2 c3 T : Nat) :
    Finset (Nat × Nat × Nat) :=
  (chunkRects T c2 c3 img.width img.height).foldl
    (fun acc r =>
      chunkColorKeysCanvas (chunkBitmap img c2 c3 r) (r.dx * 3) (r.dy * 3) acc)
    ∅

/-- activeColors after createTemplateTiles (lines 240-242): every key of
colorsUsed is added to whatever set the instance already held (empty for
a freshly constructed template). -/
def activeColorsAfterCreate (init : Finset (Nat × Nat × Nat))
    (img : Image) (c2 c3 T : Nat) : Finset (Nat × Nat × Nat) :=
  init ∪ colorsUsedAfterCreate img c2 c3 T

/-- The histogram keys one stored chunk bitmap contributes in
buildCenterPixelIndex (lines 275-292): logical pixels, centre sampled at
x * drawMult + 1. -/
def rebuildChunkColors (drawMult : Nat) (bmp : Image)
    (init : Finset (Nat × Nat × Nat)) : Finset (Nat × Nat × Nat) :=
  (pixelList (bmp.width / drawMult) (bmp.height / drawMult)).foldl
    (fun acc p =>
      let c := bmp.pix (p.1 * drawMult + 1) (p.2 * drawMult + 1)
      if c.a ≠ 0 then insert (c.r, c.g, c.b) acc else acc) init

/-- colorsUsed after buildCenterPixelIndex, rebuilt from scratch over
the stored chunk bitmaps. -/
def rebuildColorsUsed (drawMult : Nat) (chunks : List Image) :
    Finset (Nat × Nat × Nat) :=
  chunks.foldl (fun acc bmp => rebuildChunkColors drawMult bmp acc) ∅

/-- activeColors after buildCenterPixelIndex (line 296): a fresh set of
exactly the colorsUsed keys. -/
def activeColorsAfterRebuild (drawMult : Nat) (chunks : List Image) :
    Finset (Nat × Nat × Nat) :=
  rebuildColorsUsed drawMult chunks

/-! ### Operation sequences over the classification sets -/

/-- The operations that touch placedPixelKeys / wrongPixelKeys: a diff
of one tile by either counting path, and the reset lifecycle calls
(Template.resetPlacedPixels / resetWrongPixels). -/
inductive TOp where
  | diffOpt : Nat → (Nat → Nat → Nat) → Nat → Nat → List Chunk → TOp
  | diffLegacy : Nat → Nat → Nat → Image → List BmpChunk → TOp
  | resetPlaced : TOp
  | resetWrong : TOp

/-- Applies one operation to the classification sets. -/
def applyTOp (st : DiffState) : TOp → DiffState
  | TOp.diffOpt T base tX tY cs => diffTile T base tX tY cs st
  | TOp.diffLegacy T tX tY live cs => legacyTile T tX tY live cs st
  | TOp.resetPlaced => ⟨∅, st.wrong⟩
  | TOp.resetWrong => ⟨st.placed, ∅⟩

/-- Runs a sequence of operations from a starting state. -/
def runOps (ops : List TOp) (st : DiffState) : DiffState :=
  ops.foldl applyTOp st

/-! ### Basic lemmas -/

lemma packRGB_eq_zero_iff (c : RGBA) :
    packRGB c = 0 ↔ c.r = 0 ∧ c.g = 0 ∧ c.b = 0 := by
  unfold packRGB
  omega

lemma packIf_eq_zero_iff (c : RGBA) :
    packIf c = 0 ↔ c.a = 0 ∨ (c.r = 0 ∧ c.g = 0 ∧ c.b = 0) := by
  unfold packIf
  split
  · simp [*]
  · simp [packRGB_eq_zero_iff, *]

lemma packRGB_inj {c d : RGBA} (hc1 : c.r < 256) (hc2 : c.g < 256)
    (hc3 : c.b < 256) (hd1 : d.r < 256) (hd2 : d.g < 256) (hd3 : d.b < 256) :
    packRGB c = packRGB d ↔ c.r = d.r ∧ c.g = d.g ∧ c.b = d.b := by
  unfold packRGB
  omega

lemma range_map_getD {w h x y : Nat} (f : Nat → Nat) (hx : x < w) (hy : y < h) :
    (((List.range (h * w)).map f).getD (y * w + x) 0) = f (y * w + x) := by
  have hlt : y * w + x < h * w := by
    calc y * w + x < y * w + w := by omega
    _ = (y + 1) * w := by ring
    _ ≤ h * w := Nat.mul_le_mul_right w (by omega)
  rw [List.getD_eq_getElem?_getD, List.getElem?_map, List.getElem?_range hlt]
  rfl

lemma rowmajor_mod {w x y : Nat} (hx : x < w) : (y * w + x) % w = x := by
  rw [Nat.add_comm, Nat.add_mul_mod_self_right]
  exact Nat.mod_eq_of_lt hx

lemma rowmajor_div {w x y : Nat} (hx : x < w) : (y * w + x) / w = y := by
  rw [Nat.add_comm, Nat.add_mul_div_right _ _ (by omega : 0 < w),
    Nat.div_eq_of_lt hx]
  omega

/-- Evaluates one entry of a rebuilt packed buffer at logical
coordinates. -/
lemma buildEntry_data_getD (bmp : Image) {x y : Nat}
    (hx : x < bmp.width / 3) (hy : y < bmp.height / 3) :
    (buildCenterPixelIndexEntry 3 bmp).data.getD (y * (bmp.width / 3) + x) 0 =
      packIf (bmp.pix (x * 3 + 1) (y * 3 + 1)) := by
  unfold buildCenterPixelIndexEntry
  simp only
  rw [range_map_getD _ hx hy, rowmajor_mod hx, rowmajor_div hx]

/-- Evaluates one entry of an inline packed buffer at logical
coordinates. -/
lemma inlineEntry_data_getD (imgD : Image) {canvasW canvasH x y : Nat}
    (hx : x < canvasW / 3) (hy : y < canvasH / 3) :
    (inlineCenterEntry imgD canvasW canvasH).data.getD (y * (canvasW / 3) + x) 0 =
      packIf (imgD.pix (x * 3 + 1) (y * 3 + 1)) := by
  unfold inlineCenterEntry
  simp only
  rw [range_map_getD _ hx hy, rowmajor_mod hx, rowmajor_div hx]

/-- A chunk bitmap's 3x3 cell centre carries exactly the corresponding
source pixel. -/
lemma chunkBitmap_center (img : Image) (c2 c3 : Nat) (r : Rect) (x y : Nat) :
    (chunkBitmap img c2 c3 r).pix (x * 3 + 1) (y * 3 + 1) =
      img.pix (r.px - c2 + x) (r.py - c3 + y) := by
  have h1 : (x * 3 + 1) / 3 = x := by omega
  have h2 : (y * 3 + 1) / 3 = y := by omega
  have h3 : (x * 3 + 1) % 3 = 1 := by omega
  have h4 : (y * 3 + 1) % 3 = 1 := by omega
  simp [chunkBitmap, h1, h2, h3, h4]

/-! ### C1: the four-way classification rule of the optimized path -/

/-- C1.  For every template pixel examined by the optimized per-pixel
classification of drawTemplateOnTile (a pixel passing the defensive
bound check), the four-way rule holds: template packed value 0 leaves
the state untouched; otherwise live packed value 0 removes the global
coordinate from both sets; a live value equal to the template value adds
to placed and removes from wrong; and a differing live value adds to
wrong and removes from placed. -/
theorem diffStep_four_way (T : Nat) (base : Nat → Nat → Nat)
    (tX tY offX offY : Nat) (cdata : Nat → Nat → Nat) (st : DiffState)
    (x y : Nat) (hx : offX + x < T) (hy : offY + y < T) :
    (cdata x y = 0 → diffStep T base tX tY offX offY cdata st (x, y) = st) ∧
    (cdata x y ≠ 0 → base (offX + x) (offY + y) = 0 →
      (diffStep T base tX tY offX offY cdata st (x, y)).placed =
        st.placed.erase (tX * T + (offX + x), tY * T + (offY + y)) ∧
      (diffStep T base tX tY offX offY cdata st (x, y)).wrong =
        st.wrong.erase (tX * T + (offX + x), tY * T + (offY + y))) ∧
    (cdata x y ≠ 0 → base (offX + x) (offY + y) = cdata x y →
      (diffStep T base tX tY offX offY cdata st (x, y)).placed =
        insert (tX * T + (offX + x), tY * T + (offY + y)) st.placed ∧
      (diffStep T base tX tY offX offY cdata st (x, y)).wrong =
        st.wrong.erase (tX * T + (offX + x), tY * T + (offY + y))) ∧
    (cdata x y ≠ 0 → base (offX + x) (offY + y) ≠ 0 →
      base (offX + x) (offY + y) ≠ cdata x y →
      (diffStep T base tX tY offX offY cdata st (x, y)).placed =
        st.placed.erase (tX * T + (offX + x), tY * T + (offY + y)) ∧
      (diffStep T base tX tY offX offY cdata st (x, y)).wrong =
        insert (tX * T + (offX + x), tY * T + (offY + y)) st.wrong) := by
  have hguard : ¬(T ≤ offX + x ∨ T ≤ offY + y) := by omega
  refine ⟨?_, ?_, ?_, ?_⟩
  · intro h0
    simp [diffStep, hguard, h0]
  · intro h0 hb
    simp [diffStep, hguard, h0, hb, delIf_eq_erase]
  · intro h0 hb
    simp [diffStep, hguard, h0, hb, delIf_eq_erase, addIf_eq_insert]
  · intro h0 hb hne
    simp [diffStep, hguard, h0, hb, hne, delIf_eq_erase, addIf_eq_insert]

/-- Witness for C1 at a concrete input: tile size 10, live and template
packed value 5 at the origin, so the pixel is classified as placed. -/
theorem diffStep_four_way_witness :
    (diffTile 10 (fun _ _ => 5) 0 0
        [⟨0, 0, 1, 1, fun _ _ => 5⟩] ⟨∅, ∅⟩ =
      diffTile 10 (fun _ _ => 5) 0 0
        [⟨0, 0, 1, 1, fun _ _ => 5⟩] ⟨∅, ∅⟩) ∧
    ((diffStep 10 (fun _ _ => 5) 0 0 0 0 (fun _ _ => 5) ⟨∅, ∅⟩ (0, 0)).placed =
        insert ((0 : Nat) * 10 + (0 + 0), (0 : Nat) * 10 + (0 + 0))
          (∅ : Finset (Nat × Nat)) ∧
      (diffStep 10 (fun _ _ => 5) 0 0 0 0 (fun _ _ => 5) ⟨∅, ∅⟩ (0, 0)).wrong =
        (∅ : Finset (Nat × Nat)).erase
          ((0 : Nat) * 10 + (0 + 0), (0 : Nat) * 10 + (0 + 0))) :=
  ⟨rfl,
    (diffStep_four_way 10 (fun _ _ => 5) 0 0 0 0 (fun _ _ => 5) ⟨∅, ∅⟩ 0 0
        (by decide) (by decide)).2.2.1 (by decide) (by decide)⟩

/-! ### C5: the packed value 0 and the true-black collision -/

/-- Counterexample to C5 as stated.  A chunk whose only template pixel
is opaque true black (0,0,0,255) produces a packed entry equal to 0, the
absence sentinel, even though the centre sample is not transparent: the
packed buffers built by chunking and by buildCenterPixelIndex cannot
represent true black distinctly from absence. -/
theorem packed_black_is_zero :
    (buildCenterPixelIndexEntry 3 ⟨3, 3, fun _ _ => ⟨0, 0, 0, 255⟩⟩).data.getD 0 0
        = 0 ∧
      ((⟨3, 3, fun _ _ => ⟨0, 0, 0, 255⟩⟩ : Image).pix 1 1).a ≠ 0 ∧
    (inlineCenterEntry ⟨3, 3, fun _ _ => ⟨0, 0, 0, 255⟩⟩ 3 3).data.getD 0 0
        = 0 := by
  refine ⟨rfl, by decide, rfl⟩

/-- C5 as amended.  An entry of a packed buffer (built inline by
chunking, or rebuilt by buildCenterPixelIndex) is 0 exactly when the
centre sample is fully transparent or its colour is true black (0,0,0);
any non-transparent centre of any other colour packs to a non-zero
value.  The claim's stronger statement, that every non-transparent
centre including true black packs to a non-zero value, is refuted by
`packed_black_is_zero`. -/
theorem packed_zero_iff (bmp imgD : Image) (canvasW canvasH x y : Nat)
    (hx1 : x < bmp.width / 3) (hy1 : y < bmp.height / 3)
    (hx2 : x < canvasW / 3) (hy2 : y < canvasH / 3) :
    ((buildCenterPixelIndexEntry 3 bmp).data.getD (y * (bmp.width / 3) + x) 0 = 0 ↔
      (bmp.pix (x * 3 + 1) (y * 3 + 1)).a = 0 ∨
        ((bmp.pix (x * 3 + 1) (y * 3 + 1)).r = 0 ∧
          (bmp.pix (x * 3 + 1) (y * 3 + 1)).g = 0 ∧
          (bmp.pix (x * 3 + 1) (y * 3 + 1)).b = 0)) ∧
    ((inlineCenterEntry imgD canvasW canvasH).data.getD (y * (canvasW / 3) + x) 0 = 0 ↔
      (imgD.pix (x * 3 + 1) (y * 3 + 1)).a = 0 ∨
        ((imgD.pix (x * 3 + 1) (y * 3 + 1)).r = 0 ∧
          (imgD.pix (x * 3 + 1) (y * 3 + 1)).g = 0 ∧
          (imgD.pix (x * 3 + 1) (y * 3 + 1)).b = 0)) := by
  rw [buildEntry_data_getD bmp hx1 hy1, inlineEntry_data_getD imgD hx2 hy2]
  exact ⟨packIf_eq_zero_iff _, packIf_eq_zero_iff _⟩

/-- Witness for the amended C5: a 3x3 chunk bitmap whose centre is
opaque red has a non-zero packed entry. -/
theorem packed_zero_iff_witness :
    ¬((buildCenterPixelIndexEntry 3
        ⟨3, 3, fun _ _ => ⟨255, 0, 0, 255⟩⟩).data.getD (0 * 1 + 0) 0 = 0) :=
  fun h =>
    by simpa using
      ((packed_zero_iff ⟨3, 3, fun _ _ => ⟨255, 0, 0, 255⟩⟩
          ⟨3, 3, fun _ _ => ⟨255, 0, 0, 255⟩⟩ 3 3 0 0
          (by decide) (by decide) (by decide) (by decide)).1.mp h)

/-! ### C8: the chunk key format -/

/-- Numeric key components of every chunk emitted by one chunking pass,
in emission order. -/
def chunkKeyPartsList (T c0 c1 c2 c3 W H : Nat) : List (Nat × Nat × Nat × Nat) :=
  (chunkRects T c2 c3 W H).map fun r => chunkKeyParts c0 c1 r.px r.py

/-- Counterexample to C8 as stated.  Chunking with tile size 500 a 1x1
image whose global pixel position is 600 emits the single chunk
(600,0,1,1), but its key components are computed with the literal 1000
of the source, not the tile size: the emitted base tile is the origin
plus 600 / 1000 = 0 (the claim demands 600 / 500 = 1) and the emitted
local offset is 600 % 1000 = 600, which does not lie in [0, 500). -/
theorem chunkKey_not_tileSize :
    chunkKeyPartsList 500 7 9 600 0 1 1 = [(7, 9, 600, 0)] ∧
    (7, 9, 600, 0) ≠
      ((7 + 600 / 500 : Nat), (9 + 0 / 500 : Nat), (600 % 500 : Nat),
        (0 % 500 : Nat)) ∧
    ¬((600 : Nat) % 1000 < 500) := by
  refine ⟨rfl, by decide, by decide⟩

/-- C8 as amended.  Every emitted chunk key has the format
TTTT,TTTT,PPP,PPP with four-digit zero-padded base-tile components and
three-digit zero-padded local offsets, where the base tile is the origin
tile plus the pixel position divided by 1000 and the offsets are the
pixel position modulo 1000, lying in [0, 1000): the source hardcodes the
constant 1000 in the key computation, so the claim's divisor and range
`tileSize` are correct exactly when the tile size is 1000 (the only
value the repository ever uses), as the final clause records. -/
theorem chunkKey_format (T c0 c1 c2 c3 W H : Nat) (k : String)
    (hk : k ∈ chunkKeys T c0 c1 c2 c3 W H) :
    ∃ r ∈ chunkRects T c2 c3 W H,
      k = padZeros 4 (toString (c0 + r.px / 1000)) ++ "," ++
          padZeros 4 (toString (c1 + r.py / 1000)) ++ "," ++
          padZeros 3 (toString (r.px % 1000)) ++ "," ++
          padZeros 3 (toString (r.py % 1000)) ∧
      chunkKeyParts c0 c1 r.px r.py =
        (c0 + r.px / 1000, c1 + r.py / 1000, r.px % 1000, r.py % 1000) ∧
      r.px % 1000 < 1000 ∧ r.py % 1000 < 1000 ∧
      (T = 1000 →
        r.px % 1000 = r.px % T ∧ r.px / 1000 = r.px / T ∧
        r.py % 1000 = r.py % T ∧ r.py / 1000 = r.py / T ∧
        r.px % T < T ∧ r.py % T < T) := by
  obtain ⟨r, hr, rfl⟩ := List.mem_map.mp hk
  refine ⟨r, hr, rfl, rfl, Nat.mod_lt _ (by omega), Nat.mod_lt _ (by omega), ?_⟩
  rintro rfl
  exact ⟨rfl, rfl, rfl, rfl, Nat.mod_lt _ (by omega), Nat.mod_lt _ (by omega)⟩

/-- Witness for the amended C8 at tile size 1000 with a 1x1 image at the
origin of tile (3,4). -/
theorem chunkKey_format_witness :
    ∃ r ∈ chunkRects 1000 0 0 1 1,
      chunkKey 3 4 0 0 =
        padZeros 4 (toString (3 + r.px / 1000)) ++ "," ++
        padZeros 4 (toString (4 + r.py / 1000)) ++ "," ++
        padZeros 3 (toString (r.px % 1000)) ++ "," ++
        padZeros 3 (toString (r.py % 1000)) ∧
      chunkKeyParts 3 4 r.px r.py =
        (3 + r.px / 1000, 4 + r.py / 1000, r.px % 1000, r.py % 1000) ∧
      r.px % 1000 < 1000 ∧ r.py % 1000 < 1000 ∧
      (1000 = 1000 →
        r.px % 1000 = r.px % 1000 ∧ r.px / 1000 = r.px / 1000 ∧
        r.py % 1000 = r.py % 1000 ∧ r.py / 1000 = r.py / 1000 ∧
        r.px % 1000 < 1000 ∧ r.py % 1000 < 1000) :=
  chunkKey_format 1000 3 4 0 0 1 1 (chunkKey 3 4 0 0)
    (by
      have h : chunkKeys 1000 3 4 0 0 1 1 = [chunkKey 3 4 0 0] := rfl
      rw [h]
      exact List.mem_singleton.mpr rfl)

/-! ### Segment lemmas for the chunking loops -/

lemma segmentsAux_zero_rem (T fuel pos : Nat) :
    segmentsAux T fuel pos 0 = [] := by
  cases fuel <;> simp [segmentsAux]

lemma segments_eq_cons (T pos e : Nat) (he : 0 < e) :
    segments T pos e =
      (pos, min (T - pos % T) e) ::
        segmentsAux T (e - 1) (pos + min (T - pos % T) e)
          (e - min (T - pos % T) e) := by
  unfold segments
  obtain ⟨k, rfl⟩ : ∃ k, e = k + 1 := ⟨e - 1, by omega⟩
  simp [segmentsAux]

lemma segmentsAux_bounds (T : Nat) :
    ∀ fuel pos rem, ∀ pd ∈ segmentsAux T fuel pos rem,
      pos ≤ pd.1 ∧ pd.1 + pd.2 ≤ pos + rem := by
  intro fuel
  induction fuel with
  | zero => intro pos rem pd hpd; simp [segmentsAux] at hpd
  | succ n ih =>
    intro pos rem pd hpd
    by_cases h0 : rem = 0
    · subst h0; simp [segmentsAux] at hpd
    · simp only [segmentsAux, if_neg h0] at hpd
      rcases List.mem_cons.mp hpd with heq | htail
      · subst heq
        have := min_le_right (T - pos % T) rem
        constructor
        · exact le_refl _
        · simp
      · have h := ih _ _ pd htail
        have := min_le_right (T - pos % T) rem
        omega

lemma segmentsAux_aligned (T : Nat) (hT : 0 < T) :
    ∀ fuel pos rem, rem ≤ fuel → pos % T = 0 →
      ∀ pd ∈ segmentsAux T fuel pos rem,
        pd.1 % T = 0 ∧ pd.2 = min T (pos + rem - pd.1) := by
  intro fuel
  induction fuel with
  | zero =>
    intro pos rem hle _ pd hpd
    have h0 : rem = 0 := by omega
    subst h0
    simp [segmentsAux] at hpd
  | succ n ih =>
    intro pos rem hle hpos pd hpd
    by_cases h0 : rem = 0
    · subst h0; simp [segmentsAux] at hpd
    · simp only [segmentsAux, if_neg h0, hpos, Nat.sub_zero] at hpd
      rcases List.mem_cons.mp hpd with heq | htail
      · subst heq
        refine ⟨hpos, ?_⟩
        simp
      · rcases le_or_lt T rem with hTr | hTr
        · rw [min_eq_left hTr] at htail
          have hpos' : (pos + T) % T = 0 := by
            rw [Nat.add_mod_right]
            exact hpos
          have h := ih (pos + T) (rem - T) (by omega) hpos' pd htail
          refine ⟨h.1, ?_⟩
          rw [h.2]
          congr 1
          omega
        · rw [min_eq_right (le_of_lt hTr)] at htail
          rw [Nat.sub_self, segmentsAux_zero_rem] at htail
          simp at htail

lemma segments_tail_spec (T pos e : Nat) (hT : 0 < T) :
    ∀ pd ∈ (segments T pos e).tail,
      pd.1 % T = 0 ∧ pd.2 = min T (pos + e - pd.1) := by
  intro pd hpd
  rcases Nat.eq_zero_or_pos e with he | he
  · subst he
    unfold segments at hpd
    simp [segmentsAux_zero_rem] at hpd
  · rw [segments_eq_cons T pos e he] at hpd
    simp only [List.tail_cons] at hpd
    have hr : pos % T < T := Nat.mod_lt _ hT
    rcases le_or_lt (T - pos % T) e with hc | hc
    · rw [min_eq_left hc] at hpd
      have hpos' : (pos + (T - pos % T)) % T = 0 := by
        have h := Nat.div_add_mod pos T
        have key : pos + (T - pos % T) = T * (pos / T) + T := by
          generalize T * (pos / T) = m at h
          omega
        rw [key, Nat.add_mod_right, Nat.mul_mod_right]
      have h := segmentsAux_aligned T hT (e - 1) _ _ (by omega) hpos' pd hpd
      refine ⟨h.1, ?_⟩
      rw [h.2]
      congr 1
      omega
    · rw [min_eq_right (le_of_lt hc)] at hpd
      rw [Nat.sub_self, segmentsAux_zero_rem] at hpd
      simp at hpd

lemma segmentsAux_cover (T : Nat) (hT : 0 < T) :
    ∀ fuel pos rem, rem ≤ fuel → ∀ g, pos ≤ g → g < pos + rem →
      ∃ pd ∈ segmentsAux T fuel pos rem, pd.1 ≤ g ∧ g < pd.1 + pd.2 := by
  intro fuel
  induction fuel with
  | zero => intro pos rem hle g hg1 hg2; omega
  | succ n ih =>
    intro pos rem hle g hg1 hg2
    have h0 : rem ≠ 0 := by omega
    simp only [segmentsAux, if_neg h0]
    have hd1 : 1 ≤ min (T - pos % T) rem := by
      rw [Nat.le_min]
      have := Nat.mod_lt pos hT
      omega
    by_cases hcase : g < pos + min (T - pos % T) rem
    · exact ⟨(pos, min (T - pos % T) rem), List.mem_cons_self _ _, hg1, hcase⟩
    · have hdr : min (T - pos % T) rem ≤ rem := min_le_right _ _
      obtain ⟨pd, hmem, h⟩ :=
        ih (pos + min (T - pos % T) rem) (rem - min (T - pos % T) rem)
          (by omega) g (by omega) (by omega)
      exact ⟨pd, List.mem_cons_of_mem _ hmem, h⟩

/-- Coverage: every global pixel of the extent lies in exactly one of
the emitted segments (existence direction). -/
lemma segments_cover (T pos e : Nat) (hT : 0 < T) {g : Nat}
    (hg1 : pos ≤ g) (hg2 : g < pos + e) :
    ∃ pd ∈ segments T pos e, pd.1 ≤ g ∧ g < pd.1 + pd.2 :=
  segmentsAux_cover T hT e pos e (le_refl e) g hg1 hg2

/-! ### C7: partial-tile coverage -/

/-- C7.  Chunking an image whose top-left global pixel offset is not
tile-aligned produces a first chunk at exactly that offset, with logical
width and height `min(tileSize - (coord mod tileSize), imageExtent)`
computed independently per axis (so its local pixel offset within its
base tile is nonzero), and every subsequent segment on each axis starts
tile-aligned and is a full tile whenever a full tile of image remains
past it. -/
theorem chunking_partial_first (T c2 c3 W H : Nat) (hT : 0 < T)
    (hW : 0 < W) (hH : 0 < H) (hx : c2 % T ≠ 0) (hy : c3 % T ≠ 0) :
    (chunkRects T c2 c3 W H).head? =
      some ⟨c2, c3, min (T - c2 % T) W, min (T - c3 % T) H⟩ ∧
    (∀ r, (chunkRects T c2 c3 W H).head? = some r →
      r.px % T ≠ 0 ∧ r.py % T ≠ 0) ∧
    (∀ pd ∈ (segments T c2 W).tail,
      pd.1 % T = 0 ∧ (pd.1 + T ≤ c2 + W → pd.2 = T)) ∧
    (∀ pd ∈ (segments T c3 H).tail,
      pd.1 % T = 0 ∧ (pd.1 + T ≤ c3 + H → pd.2 = T)) := by
  have hhead : (chunkRects T c2 c3 W H).head? =
      some ⟨c2, c3, min (T - c2 % T) W, min (T - c3 % T) H⟩ := by
    unfold chunkRects
    rw [segments_eq_cons T c3 H hH, segments_eq_cons T c2 W hW]
    simp
  refine ⟨hhead, ?_, ?_, ?_⟩
  · intro r hr
    rw [hhead] at hr
    cases hr
    exact ⟨hx, hy⟩
  · intro pd hpd
    have h := segments_tail_spec T c2 W hT pd hpd
    refine ⟨h.1, fun hfull => ?_⟩
    rw [h.2]
    have : T ≤ c2 + W - pd.1 := by omega
    exact min_eq_left this
  · intro pd hpd
    have h := segments_tail_spec T c3 H hT pd hpd
    refine ⟨h.1, fun hfull => ?_⟩
    rw [h.2]
    have : T ≤ c3 + H - pd.1 := by omega
    exact min_eq_left this

/-- Witness for C7: tile size 10, a 15x4 image at global pixel offset
(3, 7); the first chunk is at (3,7) with logical size 7x3, and the
second X segment starts aligned at 10. -/
theorem chunking_partial_first_witness :
    (chunkRects 10 3 7 15 4).head? = some ⟨3, 7, min (10 - 3 % 10) 15, min (10 - 7 % 10) 4⟩ ∧
    (∀ r, (chunkRects 10 3 7 15 4).head? = some r →
      r.px % 10 ≠ 0 ∧ r.py % 10 ≠ 0) ∧
    (∀ pd ∈ (segments 10 3 15).tail,
      pd.1 % 10 = 0 ∧ (pd.1 + 10 ≤ 3 + 15 → pd.2 = 10)) ∧
    (∀ pd ∈ (segments 10 7 4).tail,
      pd.1 % 10 = 0 ∧ (pd.1 + 10 ≤ 7 + 4 → pd.2 = 10)) :=
  chunking_partial_first 10 3 7 15 4 (by decide) (by decide) (by decide)
    (by decide) (by decide)

/-! ### C6: round-trip of the packed buffer -/

/-- C6.  For every chunk emitted by chunking, rebuilding the packed
buffer from the chunk's stored upscaled bitmap with
buildCenterPixelIndex (drawMult 3, as the manager passes) reproduces the
inline buffer of original chunking time exactly: same structure, the
logical width and height of the rectangle, and each entry the packed
centre sample, which is the packed source pixel of the chunk. -/
theorem center_index_round_trip (img : Image) (c2 c3 T : Nat) (r : Rect)
    (hr : r ∈ chunkRects T c2 c3 img.width img.height) (x y : Nat)
    (hx : x < r.dx) (hy : y < r.dy) :
    buildCenterPixelIndexEntry 3 (chunkBitmap img c2 c3 r) =
      inlineCenterEntry (chunkBitmap img c2 c3 r) (r.dx * 3) (r.dy * 3) ∧
    (buildCenterPixelIndexEntry 3 (chunkBitmap img c2 c3 r)).width = r.dx ∧
    (buildCenterPixelIndexEntry 3 (chunkBitmap img c2 c3 r)).height = r.dy ∧
    (buildCenterPixelIndexEntry 3 (chunkBitmap img c2 c3 r)).data.getD
        (y * r.dx + x) 0 =
      packIf (img.pix (r.px - c2 + x) (r.py - c3 + y)) := by
  have hw : (chunkBitmap img c2 c3 r).width = r.dx * 3 := rfl
  have hwd : (chunkBitmap img c2 c3 r).width / 3 = r.dx := by
    rw [hw]; omega
  have hhd : (chunkBitmap img c2 c3 r).height / 3 = r.dy := by
    show r.dy * 3 / 3 = r.dy
    omega
  refine ⟨rfl, hwd, hhd, ?_⟩
  have hx3 : x < (chunkBitmap img c2 c3 r).width / 3 := by rw [hwd]; exact hx
  have hy3 : y < (chunkBitmap img c2 c3 r).height / 3 := by rw [hhd]; exact hy
  have := buildEntry_data_getD (chunkBitmap img c2 c3 r) hx3 hy3
  rw [hwd] at this
  rw [this, chunkBitmap_center]

/-- Witness for C6: a 1x1 red image at the origin of tile space with
tile size 10 has one chunk, whose rebuilt entry matches the inline one
and whose single datum is packed red. -/
theorem center_index_round_trip_witness :
    buildCenterPixelIndexEntry 3
        (chunkBitmap ⟨1, 1, fun _ _ => ⟨255, 0, 0, 255⟩⟩ 0 0 ⟨0, 0, 1, 1⟩) =
      inlineCenterEntry
        (chunkBitmap ⟨1, 1, fun _ _ => ⟨255, 0, 0, 255⟩⟩ 0 0 ⟨0, 0, 1, 1⟩)
        (1 * 3) (1 * 3) ∧
    (buildCenterPixelIndexEntry 3
        (chunkBitmap ⟨1, 1, fun _ _ => ⟨255, 0, 0, 255⟩⟩ 0 0 ⟨0, 0, 1, 1⟩)).width
      = 1 ∧
    (buildCenterPixelIndexEntry 3
        (chunkBitmap ⟨1, 1, fun _ _ => ⟨255, 0, 0, 255⟩⟩ 0 0 ⟨0, 0, 1, 1⟩)).height
      = 1 ∧
    (buildCenterPixelIndexEntry 3
        (chunkBitmap ⟨1, 1, fun _ _ => ⟨255, 0, 0, 255⟩⟩ 0 0 ⟨0, 0, 1, 1⟩)).data.getD
        (0 * 1 + 0) 0 =
      packIf ((⟨1, 1, fun _ _ => ⟨255, 0, 0, 255⟩⟩ : Image).pix
        ((⟨0, 0, 1, 1⟩ : Rect).px - 0 + 0) ((⟨0, 0, 1, 1⟩ : Rect).py - 0 + 0)) :=
  center_index_round_trip ⟨1, 1, fun _ _ => ⟨255, 0, 0, 255⟩⟩ 0 0 10
    ⟨0, 0, 1, 1⟩
    (by
      have h : chunkRects 10 0 0 1 1 = [⟨0, 0, 1, 1⟩] := rfl
      rw [h]
      exact List.mem_singleton.mpr rfl)
    0 0 (by decide) (by decide)

/-! ### C4: disjointness of the classification sets -/

/-- Disjointness of the two classification sets, pointwise. -/
def DisjPW (st : DiffState) : Prop :=
  ∀ k, ¬(k ∈ st.placed ∧ k ∈ st.wrong)

lemma foldl_preserves {α : Type _} {β : Type _} (P : α → Prop) (f : α → β → α)
    (hstep : ∀ a b, P a → P (f a b)) :
    ∀ (l : List β) (a : α), P a → P (l.foldl f a) := by
  intro l
  induction l with
  | nil => intro a ha; exact ha
  | cons b l ih => intro a ha; exact ih (f a b) (hstep a b ha)

lemma disj_removeBoth {st : DiffState} (h : DisjPW st) (k : Nat × Nat) :
    DisjPW ⟨delIf st.placed k, delIf st.wrong k⟩ := by
  intro k'
  simp only [delIf_eq_erase, Finset.mem_erase]
  intro ⟨⟨_, h1⟩, ⟨_, h2⟩⟩
  exact h k' ⟨h1, h2⟩

lemma disj_markPlaced {st : DiffState} (h : DisjPW st) (k : Nat × Nat) :
    DisjPW ⟨addIf st.placed k, delIf st.wrong k⟩ := by
  intro k'
  simp only [addIf_eq_insert, delIf_eq_erase, Finset.mem_insert,
    Finset.mem_erase]
  rintro ⟨h1 | h1, hne, h2⟩
  · exact hne h1
  · exact h k' ⟨h1, h2⟩

lemma disj_markWrong {st : DiffState} (h : DisjPW st) (k : Nat × Nat) :
    DisjPW ⟨delIf st.placed k, addIf st.wrong k⟩ := by
  intro k'
  simp only [addIf_eq_insert, delIf_eq_erase, Finset.mem_insert,
    Finset.mem_erase]
  rintro ⟨⟨hne, h1⟩, h2 | h2⟩
  · exact hne h2
  · exact h k' ⟨h1, h2⟩

lemma disj_diffStep (T : Nat) (base : Nat → Nat → Nat)
    (tX tY offX offY : Nat) (cdata : Nat → Nat → Nat) (st : DiffState)
    (p : Nat × Nat) (h : DisjPW st) :
    DisjPW (diffStep T base tX tY offX offY cdata st p) := by
  simp only [diffStep]
  split_ifs
  · exact h
  · exact h
  · exact disj_removeBoth h _
  · exact disj_markPlaced h _
  · exact disj_markWrong h _

lemma disj_legacyStep (T tX tY : Nat) (live3 : Image) (offX offY : Nat)
    (tb : Image) (st : DiffState) (p : Nat × Nat) (h : DisjPW st) :
    DisjPW (legacyStep T tX tY live3 offX offY tb st p) := by
  simp only [legacyStep]
  split_ifs
  · exact h
  · exact disj_removeBoth h _
  · exact disj_markPlaced h _
  · exact disj_markWrong h _

lemma disj_diffTile (T : Nat) (base : Nat → Nat → Nat) (tX tY : Nat)
    (chunks : List Chunk) (st : DiffState) (h : DisjPW st) :
    DisjPW (diffTile T base tX tY chunks st) := by
  refine foldl_preserves DisjPW _ ?_ chunks st h
  intro st' c hc
  refine foldl_preserves DisjPW _ ?_ _ st' hc
  intro st'' p hp
  exact disj_diffStep T base tX tY c.offX c.offY c.cdata st'' p hp

lemma disj_legacyTile (T tX tY : Nat) (live : Image)
    (chunks : List BmpChunk) (st : DiffState) (h : DisjPW st) :
    DisjPW (legacyTile T tX tY live chunks st) := by
  refine foldl_preserves DisjPW _ ?_ chunks st h
  intro st' c hc
  refine foldl_preserves DisjPW _ ?_ _ st' hc
  intro st'' p hp
  exact disj_legacyStep T tX tY (upscale3 live) c.offX c.offY c.bmp st'' p hp

lemma disj_applyTOp (st : DiffState) (op : TOp) (h : DisjPW st) :
    DisjPW (applyTOp st op) := by
  cases op with
  | diffOpt T base tX tY cs => exact disj_diffTile T base tX tY cs st h
  | diffLegacy T tX tY live cs => exact disj_legacyTile T tX tY live cs st h
  | resetPlaced => exact fun k hk => absurd hk.1 (Finset.not_mem_empty k)
  | resetWrong => exact fun k hk => absurd hk.2 (Finset.not_mem_empty k)

/-- C4.  Starting from the freshly constructed template (both sets
empty), after any sequence of diffs (by either counting path) and
resets, no global pixel coordinate is simultaneously a member of the
placed set and the wrong set. -/
theorem placed_wrong_disjoint (ops : List TOp) (k : Nat × Nat) :
    ¬(k ∈ (runOps ops ⟨∅, ∅⟩).placed ∧ k ∈ (runOps ops ⟨∅, ∅⟩).wrong) := by
  have h : DisjPW (runOps ops ⟨∅, ∅⟩) := by
    refine foldl_preserves DisjPW applyTOp ?_ ops ⟨∅, ∅⟩ ?_
    · intro st op hst
      exact disj_applyTOp st op hst
    · intro k' hk'
      exact absurd hk'.1 (Finset.not_mem_empty k')
  exact h k

/-! ### C3: idempotence of the per-tile diff

Every examined pixel either skips or assigns the membership of one
global coordinate independently of the previous set state; the per-tile
diff is the fold of these assignments, so its effect on any coordinate
is decided by the last assignment to it, and re-running the identical
pass changes nothing. -/

/-- The three state-independent assignments a classified pixel makes. -/
inductive Outc where
  | removeBoth : Outc
  | markPlaced : Outc
  | markWrong : Outc
deriving DecidableEq

/-- Applies an optional (coordinate, outcome) effect to the sets. -/
def applyEff (st : DiffState) : Option ((Nat × Nat) × Outc) → DiffState
  | none => st
  | some (k, Outc.removeBoth) => ⟨delIf st.placed k, delIf st.wrong k⟩
  | some (k, Outc.markPlaced) => ⟨addIf st.placed k, delIf st.wrong k⟩
  | some (k, Outc.markWrong) => ⟨delIf st.placed k, addIf st.wrong k⟩

/-- The effect of one examined pixel of one chunk under the optimized
path, mirroring the branch structure of diffStep. -/
def effOf (T : Nat) (base : Nat → Nat → Nat) (tX tY : Nat)
    (e : Chunk × (Nat × Nat)) : Option ((Nat × Nat) × Outc) :=
  let dstX := e.1.offX + e.2.1
  let dstY := e.1.offY + e.2.2
  if T ≤ dstX ∨ T ≤ dstY then none
  else
    let baseVal := base dstX dstY
    let tplVal := e.1.cdata e.2.1 e.2.2
    if tplVal = 0 then none
    else
      let k := (tX * T + dstX, tY * T + dstY)
      if baseVal = 0 then some (k, Outc.removeBoth)
      else if baseVal = tplVal then some (k, Outc.markPlaced)
      else some (k, Outc.markWrong)

lemma diffStep_eq_applyEff (T : Nat) (base : Nat → Nat → Nat)
    (tX tY : Nat) (c : Chunk) (st : DiffState) (p : Nat × Nat) :
    diffStep T base tX tY c.offX c.offY c.cdata st p =
      applyEff st (effOf T base tX tY (c, p)) := by
  simp only [diffStep, effOf]
  split_ifs <;> rfl

/-- All (chunk, pixel) pairs one tile diff examines, in order. -/
def tileElems (chunks : List Chunk) : List (Chunk × (Nat × Nat)) :=
  chunks.flatMap fun c => (pixelList c.width c.height).map fun p => (c, p)

lemma tileElems_cons (c : Chunk) (cs : List Chunk) :
    tileElems (c :: cs) =
      ((pixelList c.width c.height).map fun p => (c, p)) ++ tileElems cs := by
  simp [tileElems]

lemma diffTile_eq_foldl (T : Nat) (base : Nat → Nat → Nat) (tX tY : Nat)
    (chunks : List Chunk) (st : DiffState) :
    diffTile T base tX tY chunks st =
      (tileElems chunks).foldl
        (fun s e => diffStep T base tX tY e.1.offX e.1.offY e.1.cdata s e.2)
        st := by
  induction chunks generalizing st with
  | nil => rfl
  | cons c cs ih =>
    have h1 : diffTile T base tX tY (c :: cs) st =
        diffTile T base tX tY cs (diffChunk T base tX tY c st) := by
      simp [diffTile]
    rw [h1, ih, tileElems_cons, List.foldl_append, List.foldl_map]
    rfl

/-- The last effect a list of effects applies to a given coordinate. -/
def lastEff (k : Nat × Nat) : List (Option ((Nat × Nat) × Outc)) → Option Outc
  | [] => none
  | e :: es =>
    match lastEff k es with
    | some o => some o
    | none =>
      match e with
      | some (k', o) => if k' = k then some o else none
      | none => none

lemma mem_delIf {s : Finset (Nat × Nat)} {k k' : Nat × Nat} :
    k' ∈ delIf s k ↔ k' ≠ k ∧ k' ∈ s := by
  rw [delIf_eq_erase, Finset.mem_erase]

lemma mem_addIf {s : Finset (Nat × Nat)} {k k' : Nat × Nat} :
    k' ∈ addIf s k ↔ k' = k ∨ k' ∈ s := by
  rw [addIf_eq_insert, Finset.mem_insert]

lemma lastEff_cons_some {k : Nat × Nat} {e : Option ((Nat × Nat) × Outc)}
    {es : List (Option ((Nat × Nat) × Outc))} {o : Outc}
    (h : lastEff k es = some o) : lastEff k (e :: es) = some o := by
  simp [lastEff, h]

lemma lastEff_cons_none_none {k : Nat × Nat}
    {es : List (Option ((Nat × Nat) × Outc))}
    (h : lastEff k es = none) : lastEff k (none :: es) = none := by
  simp [lastEff, h]

lemma lastEff_cons_none_some {k k' : Nat × Nat} {o : Outc}
    {es : List (Option ((Nat × Nat) × Outc))}
    (h : lastEff k es = none) :
    lastEff k (some (k', o) :: es) = if k' = k then some o else none := by
  simp [lastEff, h]

lemma foldl_applyEff_placed (k : Nat × Nat) :
    ∀ (effs : List (Option ((Nat × Nat) × Outc))) (st : DiffState),
      (k ∈ (effs.foldl applyEff st).placed ↔
        match lastEff k effs with
        | none => k ∈ st.placed
        | some o => o = Outc.markPlaced) := by
  intro effs
  induction effs with
  | nil => intro st; exact Iff.rfl
  | cons e es ih =>
    intro st
    rw [List.foldl_cons]
    have h := ih (applyEff st e)
    cases hle : lastEff k es with
    | some o =>
      rw [hle] at h
      rw [lastEff_cons_some hle]
      exact h
    | none =>
      rw [hle] at h
      cases e with
      | none =>
        rw [lastEff_cons_none_none hle]
        exact h
      | some ko =>
        obtain ⟨k', o⟩ := ko
        rw [lastEff_cons_none_some hle, h]
        by_cases hk : k' = k
        · subst hk
          simp only [if_pos rfl]
          cases o with
          | removeBoth => simp [applyEff, mem_delIf]
          | markPlaced => simp [applyEff, mem_addIf]
          | markWrong => simp [applyEff, mem_delIf]
        · simp only [if_neg hk]
          cases o with
          | removeBoth => simp [applyEff, mem_delIf, Ne.symm hk]
          | markPlaced => simp [applyEff, mem_addIf, Ne.symm hk]
          | markWrong => simp [applyEff, mem_delIf, Ne.symm hk]

lemma foldl_applyEff_wrong (k : Nat × Nat) :
    ∀ (effs : List (Option ((Nat × Nat) × Outc))) (st : DiffState),
      (k ∈ (effs.foldl applyEff st).wrong ↔
        match lastEff k effs with
        | none => k ∈ st.wrong
        | some o => o = Outc.markWrong) := by
  intro effs
  induction effs with
  | nil => intro st; exact Iff.rfl
  | cons e es ih =>
    intro st
    rw [List.foldl_cons]
    have h := ih (applyEff st e)
    cases hle : lastEff k es with
    | some o =>
      rw [hle] at h
      rw [lastEff_cons_some hle]
      exact h
    | none =>
      rw [hle] at h
      cases e with
      | none =>
        rw [lastEff_cons_none_none hle]
        exact h
      | some ko =>
        obtain ⟨k', o⟩ := ko
        rw [lastEff_cons_none_some hle, h]
        by_cases hk : k' = k
        · subst hk
          simp only [if_pos rfl]
          cases o with
          | removeBoth => simp [applyEff, mem_delIf]
          | markPlaced => simp [applyEff, mem_delIf]
          | markWrong => simp [applyEff, mem_addIf]
        · simp only [if_neg hk]
          cases o with
          | removeBoth => simp [applyEff, mem_delIf, Ne.symm hk]
          | markPlaced => simp [applyEff, mem_delIf, Ne.symm hk]
          | markWrong => simp [applyEff, mem_addIf, Ne.symm hk]

/-- C3.  Running the optimized per-tile diff a second time with the same
unchanged live snapshot leaves the placed and wrong sets with contents
identical to their state after the first run: the per-tile diff is
idempotent, for every template (chunk list), tile, snapshot and starting
state. -/
theorem diffTile_idempotent (T : Nat) (base : Nat → Nat → Nat)
    (tX tY : Nat) (chunks : List Chunk) (st : DiffState) :
    diffTile T base tX tY chunks (diffTile T base tX tY chunks st) =
      diffTile T base tX tY chunks st := by
  have hstep : (fun s (e : Chunk × (Nat × Nat)) =>
      diffStep T base tX tY e.1.offX e.1.offY e.1.cdata s e.2) =
      fun s e => applyEff s (effOf T base tX tY e) := by
    funext s e
    exact diffStep_eq_applyEff T base tX tY e.1 s e.2
  have hfold : ∀ s, diffTile T base tX tY chunks s =
      ((tileElems chunks).map (effOf T base tX tY)).foldl applyEff s := by
    intro s
    rw [diffTile_eq_foldl, hstep, List.foldl_map]
  rw [hfold (diffTile T base tX tY chunks st), hfold st]
  apply DiffState.ext
  · apply Finset.ext
    intro k
    have h1 := foldl_applyEff_placed k
      ((tileElems chunks).map (effOf T base tX tY))
      (((tileElems chunks).map (effOf T base tX tY)).foldl applyEff st)
    have h2 := foldl_applyEff_placed k
      ((tileElems chunks).map (effOf T base tX tY)) st
    cases hle : lastEff k ((tileElems chunks).map (effOf T base tX tY)) with
    | some o =>
      rw [hle] at h1 h2
      rw [h1, h2]
    | none =>
      rw [hle] at h1
      rw [h1]
  · apply Finset.ext
    intro k
    have h1 := foldl_applyEff_wrong k
      ((tileElems chunks).map (effOf T base tX tY))
      (((tileElems chunks).map (effOf T base tX tY)).foldl applyEff st)
    have h2 := foldl_applyEff_wrong k
      ((tileElems chunks).map (effOf T base tX tY)) st
    cases hle : lastEff k ((tileElems chunks).map (effOf T base tX tY)) with
    | some o =>
      rw [hle] at h1 h2
      rw [h1, h2]
    | none =>
      rw [hle] at h1
      rw [h1]

/-! ### C2: legacy versus optimized counting paths -/

/-- Counterexample to C2 as stated.  A template whose sole pixel is
opaque red, diffed against a live tile whose pixel is opaque true black:
the legacy path classifies the pixel as wrong (alpha and RGB compared
directly), while the optimized path packs the black live pixel to 0 and
treats it as unpainted, removing the coordinate from both sets.  The two
paths do not produce identical set contents from the same initial
state. -/
theorem legacy_opt_disagree_black :
    legacyTile 1 0 0 ⟨1, 1, fun _ _ => ⟨0, 0, 0, 255⟩⟩
        [⟨0, 0, ⟨3, 3, fun x y => if x = 1 ∧ y = 1 then ⟨255, 0, 0, 255⟩ else ⟨0, 0, 0, 0⟩⟩⟩]
        ⟨∅, ∅⟩ ≠
      diffTile 1 (livePacked ⟨1, 1, fun _ _ => ⟨0, 0, 0, 255⟩⟩) 0 0
        ([⟨0, 0, ⟨3, 3, fun x y => if x = 1 ∧ y = 1 then ⟨255, 0, 0, 255⟩ else ⟨0, 0, 0, 0⟩⟩⟩].map chunkOfBitmap)
        ⟨∅, ∅⟩ := by
  decide

lemma chunkOfBitmap_cdata (c : BmpChunk) {x y : Nat}
    (hx : x < c.bmp.width / 3) (hy : y < c.bmp.height / 3) :
    (chunkOfBitmap c).cdata x y =
      packIf (c.bmp.pix (x * 3 + 1) (y * 3 + 1)) := by
  show (buildCenterPixelIndexEntry 3 c.bmp).data.getD
      (y * (buildCenterPixelIndexEntry 3 c.bmp).width + x) 0 = _
  have hw : (buildCenterPixelIndexEntry 3 c.bmp).width = c.bmp.width / 3 := rfl
  rw [hw]
  exact buildEntry_data_getD c.bmp hx hy

/-- C2 as amended.  The legacy diff path (re-deriving template colours
by sampling the stored 3x bitmaps) and the optimized diff path
(consuming the packed buffers rebuilt from the same bitmaps) produce
identical final set contents from any common initial state, for every
chunk list that fits inside the tile, provided the 8-bit channel bounds
hold and no opaque true-black sample occurs either among the chunk
centre samples or among the live tile pixels.  As stated (without the
black exclusions) the claim is refuted by `legacy_opt_disagree_black`:
the packed representation conflates opaque black with absence, the
legacy RGBA representation does not. -/
theorem legacy_opt_agree_no_black (T tX tY : Nat) (live : Image)
    (chunks : List BmpChunk) (st : DiffState)
    (hlive : ∀ x < T, ∀ y < T,
      ((live.pix x y).r < 256 ∧ (live.pix x y).g < 256 ∧
        (live.pix x y).b < 256) ∧
      ((live.pix x y).a ≠ 0 →
        ¬((live.pix x y).r = 0 ∧ (live.pix x y).g = 0 ∧ (live.pix x y).b = 0)))
    (hchunks : ∀ c ∈ chunks, ∀ x < c.bmp.width / 3, ∀ y < c.bmp.height / 3,
      ((c.bmp.pix (x * 3 + 1) (y * 3 + 1)).r < 256 ∧
        (c.bmp.pix (x * 3 + 1) (y * 3 + 1)).g < 256 ∧
        (c.bmp.pix (x * 3 + 1) (y * 3 + 1)).b < 256) ∧
      ((c.bmp.pix (x * 3 + 1) (y * 3 + 1)).a ≠ 0 →
        ¬((c.bmp.pix (x * 3 + 1) (y * 3 + 1)).r = 0 ∧
          (c.bmp.pix (x * 3 + 1) (y * 3 + 1)).g = 0 ∧
          (c.bmp.pix (x * 3 + 1) (y * 3 + 1)).b = 0)))
    (hin : ∀ c ∈ chunks, c.offX + c.bmp.width / 3 ≤ T ∧
      c.offY + c.bmp.height / 3 ≤ T) :
    legacyTile T tX tY live chunks st =
      diffTile T (livePacked live) tX tY (chunks.map chunkOfBitmap) st := by
  induction chunks generalizing st with
  | nil => rfl
  | cons c cs ih =>
    have hmain : legacyChunk T tX tY (upscale3 live) c st =
        diffChunk T (livePacked live) tX tY (chunkOfBitmap c) st := by
      unfold legacyChunk diffChunk
      have hwidth : (chunkOfBitmap c).width = c.bmp.width / 3 := rfl
      have hheight : (chunkOfBitmap c).height = c.bmp.height / 3 := rfl
      rw [hwidth, hheight]
      apply List.foldl_ext
      intro s p hp
      obtain ⟨hpx, hpy⟩ := mem_pixelList.mp hp
      have hc := hchunks c (List.mem_cons_self c cs) p.1 hpx p.2 hpy
      have hbounds := hin c (List.mem_cons_self c cs)
      have hdx : c.offX + p.1 < T := by omega
      have hdy : c.offY + p.2 < T := by omega
      have hup : (upscale3 live).pix ((c.offX + p.1) * 3 + 1)
          ((c.offY + p.2) * 3 + 1) = live.pix (c.offX + p.1) (c.offY + p.2) := by
        show live.pix (((c.offX + p.1) * 3 + 1) / 3) (((c.offY + p.2) * 3 + 1) / 3) = _
        have e1 : ((c.offX + p.1) * 3 + 1) / 3 = c.offX + p.1 := by omega
        have e2 : ((c.offY + p.2) * 3 + 1) / 3 = c.offY + p.2 := by omega
        rw [e1, e2]
      have hl := hlive (c.offX + p.1) hdx (c.offY + p.2) hdy
      have hoff1 : (chunkOfBitmap c).offX = c.offX := rfl
      have hoff2 : (chunkOfBitmap c).offY = c.offY := rfl
      rw [legacyStep, diffStep, hoff1, hoff2,
        chunkOfBitmap_cdata c hpx hpy, hup]
      have hguard : ¬(T ≤ c.offX + p.1 ∨ T ≤ c.offY + p.2) := by omega
      rw [if_neg hguard]
      by_cases hta : (c.bmp.pix (p.1 * 3 + 1) (p.2 * 3 + 1)).a = 0
      · rw [if_pos hta]
        have : packIf (c.bmp.pix (p.1 * 3 + 1) (p.2 * 3 + 1)) = 0 := by
          unfold packIf
          rw [if_pos hta]
        rw [this]
        simp
      · rw [if_neg hta]
        have htpl : packIf (c.bmp.pix (p.1 * 3 + 1) (p.2 * 3 + 1)) =
            packRGB (c.bmp.pix (p.1 * 3 + 1) (p.2 * 3 + 1)) := by
          unfold packIf
          rw [if_neg hta]
        have htplne : packRGB (c.bmp.pix (p.1 * 3 + 1) (p.2 * 3 + 1)) ≠ 0 := by
          rw [Ne, packRGB_eq_zero_iff]
          exact hc.2 hta
        rw [htpl, if_neg htplne]
        by_cases hba : (live.pix (c.offX + p.1) (c.offY + p.2)).a = 0
        · rw [if_pos hba]
          have : livePacked live (c.offX + p.1) (c.offY + p.2) = 0 := by
            unfold livePacked packIf
            rw [if_pos hba]
          rw [this, if_pos rfl]
        · rw [if_neg hba]
          have hbase : livePacked live (c.offX + p.1) (c.offY + p.2) =
              packRGB (live.pix (c.offX + p.1) (c.offY + p.2)) := by
            unfold livePacked packIf
            rw [if_neg hba]
          have hbasene : packRGB (live.pix (c.offX + p.1) (c.offY + p.2)) ≠ 0 := by
            rw [Ne, packRGB_eq_zero_iff]
            exact hl.2 hba
          rw [hbase, if_neg hbasene]
          have hinj := packRGB_inj hl.1.1 hl.1.2.1 hl.1.2.2
            hc.1.1 hc.1.2.1 hc.1.2.2
          by_cases heq : (live.pix (c.offX + p.1) (c.offY + p.2)).r =
              (c.bmp.pix (p.1 * 3 + 1) (p.2 * 3 + 1)).r ∧
              (live.pix (c.offX + p.1) (c.offY + p.2)).g =
              (c.bmp.pix (p.1 * 3 + 1) (p.2 * 3 + 1)).g ∧
              (live.pix (c.offX + p.1) (c.offY + p.2)).b =
              (c.bmp.pix (p.1 * 3 + 1) (p.2 * 3 + 1)).b
          · rw [if_pos heq, if_pos (hinj.mpr heq)]
          · rw [if_neg heq, if_neg (fun hp' => heq (hinj.mp hp'))]
    have h1 : legacyTile T tX tY live (c :: cs) st =
        legacyTile T tX tY live cs (legacyChunk T tX tY (upscale3 live) c st) := by
      simp [legacyTile]
    have h2 : diffTile T (livePacked live) tX tY ((c :: cs).map chunkOfBitmap) st =
        diffTile T (livePacked live) tX tY (cs.map chunkOfBitmap)
          (diffChunk T (livePacked live) tX tY (chunkOfBitmap c) st) := by
      simp [diffTile]
    rw [h1, h2, hmain]
    exact ih _ (fun c' hc' => hchunks c' (List.mem_cons_of_mem c hc'))
      (fun c' hc' => hin c' (List.mem_cons_of_mem c hc'))

/-- Witness for the amended C2: a single red-centre chunk against a live
tile of the same red agrees between the two paths. -/
theorem legacy_opt_agree_no_black_witness :
    legacyTile 1 0 0 ⟨1, 1, fun _ _ => ⟨255, 0, 0, 255⟩⟩
        [⟨0, 0, ⟨3, 3, fun x y => if x = 1 ∧ y = 1 then ⟨255, 0, 0, 255⟩ else ⟨0, 0, 0, 0⟩⟩⟩]
        ⟨∅, ∅⟩ =
      diffTile 1 (livePacked ⟨1, 1, fun _ _ => ⟨255, 0, 0, 255⟩⟩) 0 0
        ([⟨0, 0, ⟨3, 3, fun x y => if x = 1 ∧ y = 1 then ⟨255, 0, 0, 255⟩ else ⟨0, 0, 0, 0⟩⟩⟩].map chunkOfBitmap)
        ⟨∅, ∅⟩ :=
  legacy_opt_agree_no_black 1 0 0 ⟨1, 1, fun _ _ => ⟨255, 0, 0, 255⟩⟩
    [⟨0, 0, ⟨3, 3, fun x y => if x = 1 ∧ y = 1 then ⟨255, 0, 0, 255⟩ else ⟨0, 0, 0, 0⟩⟩⟩]
    ⟨∅, ∅⟩ (by decide) (by decide) (by decide)

/-! ### C9: compositor lemmas -/

lemma mem_centersList {n x : Nat} :
    x ∈ centersList n ↔ ∃ i, i < (n + 1) / 3 ∧ x = i * 3 + 1 := by
  unfold centersList
  simp only [List.mem_map, List.mem_range]
  constructor
  · rintro ⟨i, hi, rfl⟩
    exact ⟨i, hi, rfl⟩
  · rintro ⟨i, hi, rfl⟩
    exact ⟨i, hi, rfl⟩

lemma mem_centerPairs {bw bh : Nat} {c : Nat × Nat} :
    c ∈ centerPairs bw bh ↔
      ∃ i j, i < (bw + 1) / 3 ∧ j < (bh + 1) / 3 ∧ c = (i * 3 + 1, j * 3 + 1) := by
  unfold centerPairs
  simp only [List.mem_flatMap, List.mem_map]
  constructor
  · rintro ⟨cy, hcy, cx, hcx, rfl⟩
    obtain ⟨j, hj, rfl⟩ := mem_centersList.mp hcy
    obtain ⟨i, hi, rfl⟩ := mem_centersList.mp hcx
    exact ⟨i, j, hi, hj, rfl⟩
  · rintro ⟨i, j, hi, hj, rfl⟩
    exact ⟨j * 3 + 1, mem_centersList.mpr ⟨j, hj, rfl⟩,
      i * 3 + 1, mem_centersList.mpr ⟨i, hi, rfl⟩, rfl⟩

lemma centerPairs_mods {bw bh : Nat} {c : Nat × Nat}
    (hc : c ∈ centerPairs bw bh) : c.1 % 3 = 1 ∧ c.2 % 3 = 1 := by
  obtain ⟨i, j, _, _, rfl⟩ := mem_centerPairs.mp hc
  constructor <;> simp [Nat.add_mul_mod_self_left] <;> omega

lemma centersList_pairwise_ne (n : Nat) :
    (centersList n).Pairwise (· ≠ ·) := by
  unfold centersList
  rw [List.pairwise_map]
  exact List.Pairwise.imp (fun h => by omega) (List.nodup_range _)

lemma pairwise_blocks_flatMap (xs ys : List Nat)
    (hxs : xs.Pairwise (· ≠ ·)) (hys : ys.Pairwise (· ≠ ·))
    (hxm : ∀ x ∈ xs, x % 3 = 1) (hym : ∀ y ∈ ys, y % 3 = 1) :
    (ys.flatMap fun cy => xs.map fun cx => ((cx, cy) : Nat × Nat)).Pairwise
      (fun c c' => ¬(c.1 / 3 = c'.1 / 3 ∧ c.2 / 3 = c'.2 / 3)) := by
  induction ys with
  | nil => exact List.Pairwise.nil
  | cons y ys ih =>
    rw [List.flatMap_cons, List.pairwise_append]
    obtain ⟨hyne, hys'⟩ := List.pairwise_cons.mp hys
    refine ⟨?_, ?_, ?_⟩
    · rw [List.pairwise_map]
      refine List.Pairwise.imp_of_mem ?_ hxs
      intro a b ha hb hne
      rintro ⟨h1, -⟩
      have hma := hxm a ha
      have hmb := hxm b hb
      exact hne (by omega)
    · exact ih hys' (fun y' hy' => hym y' (List.mem_cons_of_mem _ hy'))
    · intro a ha b hb
      obtain ⟨cx, hcx, rfl⟩ := List.mem_map.mp ha
      obtain ⟨cy', hcy', hb'⟩ := List.mem_flatMap.mp hb
      obtain ⟨cx', hcx', rfl⟩ := List.mem_map.mp hb'
      rintro ⟨-, h2⟩
      have hmy := hym y (List.mem_cons_self _ _)
      have hmy' := hym cy' (List.mem_cons_of_mem _ hcy')
      exact hyne cy' hcy' (by omega)

lemma centerPairs_pairwise_blocks (bw bh : Nat) :
    (centerPairs bw bh).Pairwise
      (fun c c' => ¬(c.1 / 3 = c'.1 / 3 ∧ c.2 / 3 = c'.2 / 3)) := by
  refine pairwise_blocks_flatMap _ _ (centersList_pairwise_ne bw)
    (centersList_pairwise_ne bh) ?_ ?_ <;>
  · intro x hx
    obtain ⟨i, _, rfl⟩ := mem_centersList.mp hx
    omega

lemma maskStep_width (s : Finset (Nat × Nat × Nat)) (img : Image)
    (c : Nat × Nat) : (maskStep s img c).width = img.width := by
  simp only [maskStep]
  split_ifs <;> rfl

lemma maskStep_height (s : Finset (Nat × Nat × Nat)) (img : Image)
    (c : Nat × Nat) : (maskStep s img c).height = img.height := by
  simp only [maskStep]
  split_ifs <;> rfl

lemma maskStep_pix_outside (s : Finset (Nat × Nat × Nat)) (img : Image)
    (c : Nat × Nat) (hc1 : c.1 % 3 = 1) (hc2 : c.2 % 3 = 1) {x y : Nat}
    (h : ¬(c.1 / 3 = x / 3 ∧ c.2 / 3 = y / 3)) :
    (maskStep s img c).pix x y = img.pix x y := by
  simp only [maskStep]
  split_ifs
  · rfl
  · rfl
  · show (if _ then _ else img.pix x y) = img.pix x y
    rw [if_neg]
    rintro ⟨hb1, hb2, hb3, hb4, -, -⟩
    exact h ⟨by omega, by omega⟩

lemma exists_mem_cons_split {α : Type _} {a : α} {l : List α} {p : α → Prop} :
    (∃ x ∈ a :: l, p x) ↔ p a ∨ ∃ x ∈ l, p x := by
  simp [List.mem_cons, or_and_right, exists_or]

/-- Pointwise description of the sequential masking fold: with centre
coordinates all of the form 3k+1 and pairwise-distinct 3x3 blocks, the
fold blanks exactly the in-bounds pixels whose block centre is
non-transparent and filtered, and touches nothing else. -/
lemma maskFold_pix (s : Finset (Nat × Nat × Nat)) :
    ∀ (l : List (Nat × Nat)) (img : Image),
      (∀ c ∈ l, c.1 % 3 = 1 ∧ c.2 % 3 = 1) →
      l.Pairwise (fun c c' => ¬(c.1 / 3 = c'.1 / 3 ∧ c.2 / 3 = c'.2 / 3)) →
      (l.foldl (maskStep s) img).width = img.width ∧
      (l.foldl (maskStep s) img).height = img.height ∧
      ∀ x y, (l.foldl (maskStep s) img).pix x y =
        if ∃ c ∈ l, c.1 / 3 = x / 3 ∧ c.2 / 3 = y / 3 ∧
            x < img.width ∧ y < img.height ∧
            (img.pix c.1 c.2).a ≠ 0 ∧
            ((img.pix c.1 c.2).r, (img.pix c.1 c.2).g, (img.pix c.1 c.2).b) ∉ s
        then ⟨(img.pix x y).r, (img.pix x y).g, (img.pix x y).b, 0⟩
        else img.pix x y := by
  intro l
  induction l with
  | nil =>
    intro img _ _
    refine ⟨rfl, rfl, ?_⟩
    intro x y
    rw [if_neg]
    · rfl
    · rintro ⟨c, hc, -⟩
      simp at hc
  | cons c l ih =>
    intro img hmods hpw
    obtain ⟨hXdiff, hpw'⟩ := List.pairwise_cons.mp hpw
    have hc := hmods c (List.mem_cons_self _ _)
    have hmods' : ∀ c' ∈ l, c'.1 % 3 = 1 ∧ c'.2 % 3 = 1 :=
      fun c' hc' => hmods c' (List.mem_cons_of_mem _ hc')
    have hdw := maskStep_width s img c
    have hdh := maskStep_height s img c
    have hF2 : ∀ c' ∈ l,
        (maskStep s img c).pix c'.1 c'.2 = img.pix c'.1 c'.2 :=
      fun c' hc' => maskStep_pix_outside s img c hc.1 hc.2 (hXdiff c' hc')
    obtain ⟨ihw, ihh, ihpix⟩ := ih (maskStep s img c) hmods' hpw'
    refine ⟨by rw [List.foldl_cons, ihw, hdw],
      by rw [List.foldl_cons, ihh, hdh], ?_⟩
    intro x y
    rw [List.foldl_cons, ihpix x y]
    have hPiff : (∃ c' ∈ l, c'.1 / 3 = x / 3 ∧ c'.2 / 3 = y / 3 ∧
        x < (maskStep s img c).width ∧ y < (maskStep s img c).height ∧
        ((maskStep s img c).pix c'.1 c'.2).a ≠ 0 ∧
        (((maskStep s img c).pix c'.1 c'.2).r,
          ((maskStep s img c).pix c'.1 c'.2).g,
          ((maskStep s img c).pix c'.1 c'.2).b) ∉ s) ↔
        (∃ c' ∈ l, c'.1 / 3 = x / 3 ∧ c'.2 / 3 = y / 3 ∧
          x < img.width ∧ y < img.height ∧
          (img.pix c'.1 c'.2).a ≠ 0 ∧
          ((img.pix c'.1 c'.2).r, (img.pix c'.1 c'.2).g,
            (img.pix c'.1 c'.2).b) ∉ s) := by
      constructor
      · rintro ⟨c', hc', h1, h2, h3, h4, h5, h6⟩
        rw [hdw] at h3
        rw [hdh] at h4
        rw [hF2 c' hc'] at h5 h6
        exact ⟨c', hc', h1, h2, h3, h4, h5, h6⟩
      · rintro ⟨c', hc', h1, h2, h3, h4, h5, h6⟩
        rw [← hdw] at h3
        rw [← hdh] at h4
        rw [← hF2 c' hc'] at h5 h6
        exact ⟨c', hc', h1, h2, h3, h4, h5, h6⟩
    by_cases hblk : c.1 / 3 = x / 3 ∧ c.2 / 3 = y / 3
    · have hPfalse : ¬(∃ c' ∈ l, c'.1 / 3 = x / 3 ∧ c'.2 / 3 = y / 3 ∧
          x < img.width ∧ y < img.height ∧
          (img.pix c'.1 c'.2).a ≠ 0 ∧
          ((img.pix c'.1 c'.2).r, (img.pix c'.1 c'.2).g,
            (img.pix c'.1 c'.2).b) ∉ s) := by
        rintro ⟨c', hc', h1, h2, -⟩
        exact hXdiff c' hc' ⟨hblk.1.trans h1.symm, hblk.2.trans h2.symm⟩
      rw [if_neg (fun h => hPfalse (hPiff.mp h))]
      by_cases hα : (img.pix c.1 c.2).a = 0
      · have himg : maskStep s img c = img := by
          simp only [maskStep, if_pos hα]
        rw [himg, if_neg]
        rintro ⟨c', hc', h1, h2, h3, h4, h5, h6⟩
        rcases List.mem_cons.mp hc' with rfl | hc'mem
        · exact h5 hα
        · exact hPfalse ⟨c', hc'mem, h1, h2, h3, h4, h5, h6⟩
      · by_cases hkey :
            ((img.pix c.1 c.2).r, (img.pix c.1 c.2).g, (img.pix c.1 c.2).b) ∈ s
        · have himg : maskStep s img c = img := by
            simp only [maskStep, if_neg hα, if_pos hkey]
          rw [himg, if_neg]
          rintro ⟨c', hc', h1, h2, h3, h4, h5, h6⟩
          rcases List.mem_cons.mp hc' with rfl | hc'mem
          · exact h6 hkey
          · exact hPfalse ⟨c', hc'mem, h1, h2, h3, h4, h5, h6⟩
        · have himg : maskStep s img c = blankBlock img c.1 c.2 := by
            simp only [maskStep, if_neg hα, if_neg hkey]
          rw [himg]
          show (if c.1 - 1 ≤ x ∧ x ≤ c.1 + 1 ∧ c.2 - 1 ≤ y ∧ y ≤ c.2 + 1 ∧
              x < img.width ∧ y < img.height then _ else img.pix x y) = _
          by_cases hbounds : x < img.width ∧ y < img.height
          · have hc1 := hc.1
            have hc2 := hc.2
            rw [if_pos ⟨by omega, by omega, by omega, by omega,
                hbounds.1, hbounds.2⟩,
              if_pos (⟨c, List.mem_cons_self _ _,
                hblk.1, hblk.2, hbounds.1, hbounds.2, hα, hkey⟩ :
                ∃ c' ∈ c :: l, c'.1 / 3 = x / 3 ∧ c'.2 / 3 = y / 3 ∧
                  x < img.width ∧ y < img.height ∧
                  (img.pix c'.1 c'.2).a ≠ 0 ∧
                  ((img.pix c'.1 c'.2).r, (img.pix c'.1 c'.2).g,
                    (img.pix c'.1 c'.2).b) ∉ s)]
          · rw [if_neg (fun h => hbounds ⟨h.2.2.2.2.1, h.2.2.2.2.2⟩), if_neg]
            rintro ⟨c', hc', h1, h2, h3, h4, -⟩
            exact hbounds ⟨h3, h4⟩
    · have hout : (maskStep s img c).pix x y = img.pix x y :=
        maskStep_pix_outside s img c hc.1 hc.2 hblk
      have hconsiff : (∃ c' ∈ c :: l, c'.1 / 3 = x / 3 ∧ c'.2 / 3 = y / 3 ∧
          x < img.width ∧ y < img.height ∧
          (img.pix c'.1 c'.2).a ≠ 0 ∧
          ((img.pix c'.1 c'.2).r, (img.pix c'.1 c'.2).g,
            (img.pix c'.1 c'.2).b) ∉ s) ↔
          (∃ c' ∈ l, c'.1 / 3 = x / 3 ∧ c'.2 / 3 = y / 3 ∧
            x < img.width ∧ y < img.height ∧
            (img.pix c'.1 c'.2).a ≠ 0 ∧
            ((img.pix c'.1 c'.2).r, (img.pix c'.1 c'.2).g,
              (img.pix c'.1 c'.2).b) ∉ s) := by
        constructor
        · rintro ⟨c', hc', h1, h2, h3, h4, h5, h6⟩
          rcases List.mem_cons.mp hc' with rfl | hc'mem
          · exact absurd ⟨h1, h2⟩ hblk
          · exact ⟨c', hc'mem, h1, h2, h3, h4, h5, h6⟩
        · rintro ⟨c', hc', h⟩
          exact ⟨c', List.mem_cons_of_mem _ hc', h⟩
      rw [hout, if_congr (hPiff.trans hconsiff.symm) rfl rfl]

lemma maskBitmap_pix (s : Finset (Nat × Nat × Nat)) (img : Image) (x y : Nat) :
    (maskBitmap s img).pix x y =
      if x / 3 < (img.width + 1) / 3 ∧ y / 3 < (img.height + 1) / 3 ∧
          x < img.width ∧ y < img.height ∧
          (img.pix ((x / 3) * 3 + 1) ((y / 3) * 3 + 1)).a ≠ 0 ∧
          ((img.pix ((x / 3) * 3 + 1) ((y / 3) * 3 + 1)).r,
            (img.pix ((x / 3) * 3 + 1) ((y / 3) * 3 + 1)).g,
            (img.pix ((x / 3) * 3 + 1) ((y / 3) * 3 + 1)).b) ∉ s
      then ⟨(img.pix x y).r, (img.pix x y).g, (img.pix x y).b, 0⟩
      else img.pix x y := by
  obtain ⟨-, -, hpix⟩ := maskFold_pix s (centerPairs img.width img.height) img
    (fun _ hc => centerPairs_mods hc) (centerPairs_pairwise_blocks _ _)
  show (List.foldl (maskStep s) img (centerPairs img.width img.height)).pix x y = _
  rw [hpix x y]
  apply if_congr ?_ rfl rfl
  constructor
  · rintro ⟨c, hc, h1, h2, rest⟩
    obtain ⟨i, j, hi, hj, rfl⟩ := mem_centerPairs.mp hc
    have hi' : i = x / 3 := by
      simp only at h1
      omega
    have hj' : j = y / 3 := by
      simp only at h2
      omega
    subst hi'
    subst hj'
    exact ⟨hi, hj, rest⟩
  · rintro ⟨hi, hj, rest⟩
    exact ⟨((x / 3) * 3 + 1, (y / 3) * 3 + 1),
      mem_centerPairs.mpr ⟨x / 3, y / 3, hi, hj, rfl⟩, by omega, by omega, rest⟩

lemma maskBitmap_width (s : Finset (Nat × Nat × Nat)) (img : Image) :
    (maskBitmap s img).width = img.width :=
  (maskFold_pix s (centerPairs img.width img.height) img
    (fun _ hc => centerPairs_mods hc) (centerPairs_pairwise_blocks _ _)).1

lemma maskBitmap_height (s : Finset (Nat × Nat × Nat)) (img : Image) :
    (maskBitmap s img).height = img.height :=
  (maskFold_pix s (centerPairs img.width img.height) img
    (fun _ hc => centerPairs_mods hc) (centerPairs_pairwise_blocks _ _)).2.1

/-- C9.  The compositor is a tri-state on the allow-list: null draws the
chunk bitmap unmodified; an empty allow-list contributes nothing; a
non-empty allow-list yields a same-size copy in which every 3x3 block
whose in-bounds centre sample is non-transparent and has a colour key
outside the allow-list is blanked to full transparency (RGB preserved,
alpha zeroed, clipped to the bitmap bounds) and every other pixel is the
original.  The canonical chunk bitmap is untouched: the source masks a
fresh canvas copy, which the purely functional `maskBitmap` captures by
construction, its reads all coming from the unchanged input. -/
theorem composite_tri_state (img : Image) (s : Finset (Nat × Nat × Nat))
    (hs : s ≠ ∅) (x y : Nat) :
    composite none img = some img ∧
    composite (some ∅) img = none ∧
    composite (some s) img = some (maskBitmap s img) ∧
    (maskBitmap s img).width = img.width ∧
    (maskBitmap s img).height = img.height ∧
    (maskBitmap s img).pix x y =
      (if x / 3 < (img.width + 1) / 3 ∧ y / 3 < (img.height + 1) / 3 ∧
          x < img.width ∧ y < img.height ∧
          (img.pix ((x / 3) * 3 + 1) ((y / 3) * 3 + 1)).a ≠ 0 ∧
          ((img.pix ((x / 3) * 3 + 1) ((y / 3) * 3 + 1)).r,
            (img.pix ((x / 3) * 3 + 1) ((y / 3) * 3 + 1)).g,
            (img.pix ((x / 3) * 3 + 1) ((y / 3) * 3 + 1)).b) ∉ s
      then ⟨(img.pix x y).r, (img.pix x y).g, (img.pix x y).b, 0⟩
      else img.pix x y) := by
  refine ⟨rfl, by simp [composite], ?_, maskBitmap_width s img,
    maskBitmap_height s img, maskBitmap_pix s img x y⟩
  show (if s = ∅ then none else some (maskBitmap s img)) = some (maskBitmap s img)
  rw [if_neg hs]

/-- Witness for C9: a 3x3 chunk with a single grey centre against a
disjoint singleton allow-list composites to the masked copy. -/
theorem composite_tri_state_witness :
    composite (some {(1, 2, 3)})
        ⟨3, 3, fun x y => if x = 1 ∧ y = 1 then ⟨9, 9, 9, 255⟩ else ⟨0, 0, 0, 0⟩⟩ =
      some (maskBitmap {(1, 2, 3)}
        ⟨3, 3, fun x y => if x = 1 ∧ y = 1 then ⟨9, 9, 9, 255⟩ else ⟨0, 0, 0, 0⟩⟩) :=
  (composite_tri_state
    ⟨3, 3, fun x y => if x = 1 ∧ y = 1 then ⟨9, 9, 9, 255⟩ else ⟨0, 0, 0, 0⟩⟩
    {(1, 2, 3)} (by decide) 1 1).2.2.1

/-! ### C10: activeColors equals the colorsUsed keys -/

lemma color_foldl_superset {β : Type _}
    (f : Finset (Nat × Nat × Nat) → β → Finset (Nat × Nat × Nat))
    (hf : ∀ acc b, acc ⊆ f acc b) (l : List β) :
    ∀ init, init ⊆ l.foldl f init := by
  induction l with
  | nil => intro init; exact Finset.Subset.refl _
  | cons b l ih => intro init; exact (hf init b).trans (ih (f init b))

lemma color_foldl_mem {β : Type _}
    (f : Finset (Nat × Nat × Nat) → β → Finset (Nat × Nat × Nat))
    (hf : ∀ acc b, acc ⊆ f acc b) {l : List β} {b : β} (hb : b ∈ l)
    {k : Nat × Nat × Nat} (hk : ∀ acc, k ∈ f acc b) (init : Finset (Nat × Nat × Nat)) :
    k ∈ l.foldl f init := by
  obtain ⟨l1, l2, rfl⟩ := List.append_of_mem hb
  rw [List.foldl_append, List.foldl_cons]
  exact color_foldl_superset f hf l2 _ (hk _)

lemma canvasStep_superset (imgD : Image) :
    ∀ (acc : Finset (Nat × Nat × Nat)) (p : Nat × Nat),
      acc ⊆ (if p.1 % 3 = 1 ∧ p.2 % 3 = 1 then
        (if (imgD.pix p.1 p.2).a ≠ 0 then
          insert ((imgD.pix p.1 p.2).r, (imgD.pix p.1 p.2).g,
            (imgD.pix p.1 p.2).b) acc
        else acc)
      else acc) := by
  intro acc p
  split_ifs <;> first | exact Finset.subset_insert _ _ | exact Finset.Subset.refl _

lemma key_mem_chunkColorKeysCanvas (imgD : Image) (canvasW canvasH : Nat)
    (init : Finset (Nat × Nat × Nat)) {u v : Nat}
    (hu : u * 3 + 1 < canvasW) (hv : v * 3 + 1 < canvasH)
    (ha : (imgD.pix (u * 3 + 1) (v * 3 + 1)).a ≠ 0) :
    ((imgD.pix (u * 3 + 1) (v * 3 + 1)).r,
      (imgD.pix (u * 3 + 1) (v * 3 + 1)).g,
      (imgD.pix (u * 3 + 1) (v * 3 + 1)).b) ∈
      chunkColorKeysCanvas imgD canvasW canvasH init := by
  unfold chunkColorKeysCanvas
  refine color_foldl_mem _ (canvasStep_superset imgD)
    (mem_pixelList.mpr ⟨hu, hv⟩ : ((u * 3 + 1, v * 3 + 1) : Nat × Nat) ∈ _) ?_ init
  intro acc
  have h1 : (u * 3 + 1) % 3 = 1 := by omega
  have h2 : (v * 3 + 1) % 3 = 1 := by omega
  simp only [h1, h2, and_self, if_true, if_pos ha]
  exact Finset.mem_insert_self _ _

lemma chunkColorKeysCanvas_superset (imgD : Image) (canvasW canvasH : Nat) :
    ∀ init, init ⊆ chunkColorKeysCanvas imgD canvasW canvasH init :=
  fun init => color_foldl_superset _ (canvasStep_superset imgD) _ init

lemma key_mem_colorsUsedAfterCreate (img : Image) (c2 c3 T : Nat)
    {r : Rect} (hr : r ∈ chunkRects T c2 c3 img.width img.height)
    {u v : Nat} (hu : u < r.dx) (hv : v < r.dy)
    (ha : ((chunkBitmap img c2 c3 r).pix (u * 3 + 1) (v * 3 + 1)).a ≠ 0) :
    (((chunkBitmap img c2 c3 r).pix (u * 3 + 1) (v * 3 + 1)).r,
      ((chunkBitmap img c2 c3 r).pix (u * 3 + 1) (v * 3 + 1)).g,
      ((chunkBitmap img c2 c3 r).pix (u * 3 + 1) (v * 3 + 1)).b) ∈
      colorsUsedAfterCreate img c2 c3 T := by
  unfold colorsUsedAfterCreate
  refine color_foldl_mem _ ?_ hr ?_ ∅
  · intro acc r'
    exact chunkColorKeysCanvas_superset _ _ _ acc
  · intro acc
    exact key_mem_chunkColorKeysCanvas _ _ _ acc (by omega) (by omega) ha

lemma rebuildStep_superset (drawMult : Nat) (bmp : Image) :
    ∀ (acc : Finset (Nat × Nat × Nat)) (p : Nat × Nat),
      acc ⊆ (if (bmp.pix (p.1 * drawMult + 1) (p.2 * drawMult + 1)).a ≠ 0 then
        insert ((bmp.pix (p.1 * drawMult + 1) (p.2 * drawMult + 1)).r,
          (bmp.pix (p.1 * drawMult + 1) (p.2 * drawMult + 1)).g,
          (bmp.pix (p.1 * drawMult + 1) (p.2 * drawMult + 1)).b) acc
      else acc) := by
  intro acc p
  split_ifs
  · exact Finset.subset_insert _ _
  · exact Finset.Subset.refl _

lemma key_mem_rebuildChunkColors (drawMult : Nat) (bmp : Image)
    (init : Finset (Nat × Nat × Nat)) {u v : Nat}
    (hu : u < bmp.width / drawMult) (hv : v < bmp.height / drawMult)
    (ha : (bmp.pix (u * drawMult + 1) (v * drawMult + 1)).a ≠ 0) :
    ((bmp.pix (u * drawMult + 1) (v * drawMult + 1)).r,
      (bmp.pix (u * drawMult + 1) (v * drawMult + 1)).g,
      (bmp.pix (u * drawMult + 1) (v * drawMult + 1)).b) ∈
      rebuildChunkColors drawMult bmp init := by
  unfold rebuildChunkColors
  refine color_foldl_mem _ (rebuildStep_superset drawMult bmp)
    (mem_pixelList.mpr ⟨hu, hv⟩ : ((u, v) : Nat × Nat) ∈ _) ?_ init
  intro acc
  rw [if_pos ha]
  exact Finset.mem_insert_self _ _

lemma key_mem_rebuildColorsUsed (drawMult : Nat) {chunks : List Image}
    {bmp : Image} (hbmp : bmp ∈ chunks) {u v : Nat}
    (hu : u < bmp.width / drawMult) (hv : v < bmp.height / drawMult)
    (ha : (bmp.pix (u * drawMult + 1) (v * drawMult + 1)).a ≠ 0) :
    ((bmp.pix (u * drawMult + 1) (v * drawMult + 1)).r,
      (bmp.pix (u * drawMult + 1) (v * drawMult + 1)).g,
      (bmp.pix (u * drawMult + 1) (v * drawMult + 1)).b) ∈
      rebuildColorsUsed drawMult chunks := by
  unfold rebuildColorsUsed
  refine color_foldl_mem _ ?_ hbmp ?_ ∅
  · intro acc bmp'
    exact color_foldl_superset _ (rebuildStep_superset drawMult bmp') _ acc
  · intro acc
    exact key_mem_rebuildChunkColors drawMult bmp acc hu hv ha

lemma segments_bounds (T pos e : Nat) {pd : Nat × Nat}
    (h : pd ∈ segments T pos e) :
    pos ≤ pd.1 ∧ pd.1 + pd.2 ≤ pos + e :=
  segmentsAux_bounds T e pos e pd h

/-- C10.  After createTemplateTiles, the template's activeColors set is
exactly the key set of the colorsUsed histogram (the initially empty set
united with every discovered key), and it is non-empty whenever the
source image has any non-transparent pixel, because chunking covers
every source pixel and records its centre sample.  After
buildCenterPixelIndex, activeColors is again exactly the rebuilt
colorsUsed key set, non-empty whenever any stored chunk has a
non-transparent centre sample.  In particular neither operation leaves
the null (show-all) or, on non-blank templates, the empty (show-none)
compositor state. -/
theorem activeColors_eq_colorsUsed (img : Image) (c2 c3 T : Nat)
    (chunks : List Image) (drawMult : Nat) (hT : 0 < T)
    (i j : Nat) (hi : i < img.width) (hj : j < img.height)
    (ha : (img.pix i j).a ≠ 0)
    (bmp : Image) (hbmp : bmp ∈ chunks) (u v : Nat)
    (hu : u < bmp.width / drawMult) (hv : v < bmp.height / drawMult)
    (hb : (bmp.pix (u * drawMult + 1) (v * drawMult + 1)).a ≠ 0) :
    activeColorsAfterCreate ∅ img c2 c3 T = colorsUsedAfterCreate img c2 c3 T ∧
    colorsUsedAfterCreate img c2 c3 T ≠ ∅ ∧
    activeColorsAfterRebuild drawMult chunks = rebuildColorsUsed drawMult chunks ∧
    rebuildColorsUsed drawMult chunks ≠ ∅ := by
  refine ⟨Finset.empty_union _, ?_, rfl, ?_⟩
  · obtain ⟨sx, hsx, hsx1, hsx2⟩ := segments_cover T c2 img.width hT
      (Nat.le_add_right c2 i) (by omega)
    obtain ⟨sy, hsy, hsy1, hsy2⟩ := segments_cover T c3 img.height hT
      (Nat.le_add_right c3 j) (by omega)
    have hbx := segments_bounds T c2 img.width hsx
    have hby := segments_bounds T c3 img.height hsy
    have hr : (⟨sx.1, sy.1, sx.2, sy.2⟩ : Rect) ∈
        chunkRects T c2 c3 img.width img.height := by
      unfold chunkRects
      exact List.mem_flatMap.mpr ⟨sy, hsy, List.mem_map.mpr ⟨sx, hsx, rfl⟩⟩
    have hcen : (chunkBitmap img c2 c3 ⟨sx.1, sy.1, sx.2, sy.2⟩).pix
        ((c2 + i - sx.1) * 3 + 1) ((c3 + j - sy.1) * 3 + 1) = img.pix i j := by
      rw [chunkBitmap_center]
      dsimp only
      have e1 : sx.1 - c2 + (c2 + i - sx.1) = i := by omega
      have e2 : sy.1 - c3 + (c3 + j - sy.1) = j := by omega
      rw [e1, e2]
    have hkey := @key_mem_colorsUsedAfterCreate img c2 c3 T
      ⟨sx.1, sy.1, sx.2, sy.2⟩ hr (c2 + i - sx.1) (c3 + j - sy.1)
      (show c2 + i - sx.1 < sx.2 by omega)
      (show c3 + j - sy.1 < sy.2 by omega)
      (by rw [hcen]; exact ha)
    exact Finset.ne_empty_of_mem hkey
  · exact Finset.ne_empty_of_mem
      (key_mem_rebuildColorsUsed drawMult hbmp hu hv hb)

/-- Witness for C10: tile size 5, a 1x1 opaque red image, and a single
stored 3x3 chunk bitmap with an opaque red centre, at drawMult 3. -/
theorem activeColors_eq_colorsUsed_witness :
    activeColorsAfterCreate ∅ ⟨1, 1, fun _ _ => ⟨255, 0, 0, 255⟩⟩ 0 0 5 =
      colorsUsedAfterCreate ⟨1, 1, fun _ _ => ⟨255, 0, 0, 255⟩⟩ 0 0 5 ∧
    colorsUsedAfterCreate ⟨1, 1, fun _ _ => ⟨255, 0, 0, 255⟩⟩ 0 0 5 ≠ ∅ ∧
    activeColorsAfterRebuild 3
        [⟨3, 3, fun x y => if x = 1 ∧ y = 1 then ⟨255, 0, 0, 255⟩ else ⟨0, 0, 0, 0⟩⟩] =
      rebuildColorsUsed 3
        [⟨3, 3, fun x y => if x = 1 ∧ y = 1 then ⟨255, 0, 0, 255⟩ else ⟨0, 0, 0, 0⟩⟩] ∧
    rebuildColorsUsed 3
        [⟨3, 3, fun x y => if x = 1 ∧ y = 1 then ⟨255, 0, 0, 255⟩ else ⟨0, 0, 0, 0⟩⟩] ≠ ∅ :=
  activeColors_eq_colorsUsed ⟨1, 1, fun _ _ => ⟨255, 0, 0, 255⟩⟩ 0 0 5
    [⟨3, 3, fun x y => if x = 1 ∧ y = 1 then ⟨255, 0, 0, 255⟩ else ⟨0, 0, 0, 0⟩⟩] 3
    (by decide) 0 0 (by decide) (by decide) (by decide)
    ⟨3, 3, fun x y => if x = 1 ∧ y = 1 then ⟨255, 0, 0, 255⟩ else ⟨0, 0, 0, 0⟩⟩
    (List.mem_singleton.mpr rfl) 0 0 (by decide) (by decide) (by decide)
